import Mathlib

/-!
# Verification of the iverilog elaborated-netlist IR (netlist.cc)

A shallow embedding of the core data structures and operations of
`netlist.cc`: the nexus ring of `NetObj::Link` pins and the `connect`
splice, the `NetRamDq` port list and `absorb_partners`, the
`NetESignal` expression-reference counter, the `NetUDP` sequential
state table, the `Design` signal ring and parameter lookup, and the
width bookkeeping of `NetEBAdd` and `NetAssignNB`.

Pins are addressed by `Fin n`; the intrusive `next_`/`prev_` pointers
of `NetObj::Link` become a pair of functions, and each C pointer write
becomes a `Function.update`, performed in exactly the order the source
performs it.
-/

namespace Netlist

/-- The pointer state of a population of `n` pins: the `next_` and
`prev_` fields of every `NetObj::Link` (netlist.cc, `class NetObj::Link`). -/
structure State (n : ℕ) where
  next : Fin n → Fin n
  prev : Fin n → Fin n

/-- The ring invariant asserted throughout netlist.cc:
`next_->prev_ == this` and `prev_->next_ == this` for every pin. -/
def wfState {n : ℕ} (s : State n) : Prop :=
  ∀ x, s.prev (s.next x) = x ∧ s.next (s.prev x) = x

instance {n : ℕ} (s : State n) : Decidable (wfState s) := by
  unfold wfState; infer_instance

/-- A freshly constructed `Link` is a singleton ring
(`Link::Link() : next_(this), prev_(this)`); a whole-fresh state maps
every pin to itself. -/
def freshState (n : ℕ) : State n := ⟨id, id⟩

/-- `Link::unlink()` (netlist.cc lines 124-129): detach a pin from its
ring and reset it to a singleton, one pointer write at a time. -/
def unlink {n : ℕ} (s : State n) (p : Fin n) : State n :=
  -- next_->prev_ = prev_;
  let s1 : State n := { s with prev := Function.update s.prev (s.next p) (s.prev p) }
  -- prev_->next_ = next_;
  let s2 : State n := { s1 with next := Function.update s1.next (s1.prev p) (s1.next p) }
  -- next_ = prev_ = this;
  let s3 : State n := { s2 with next := Function.update s2.next p p }
  { s3 with prev := Function.update s3.prev p p }

/-- One iteration body of the `connect` splice loop (netlist.cc lines
94-102): pull `cur` out of its ring and insert it immediately after
`r`, one pointer write at a time, in source order. -/
def moveAfter {n : ℕ} (s : State n) (cur r : Fin n) : State n :=
  -- cur->prev_->next_ = cur->next_;
  let s1 : State n := { s with next := Function.update s.next (s.prev cur) (s.next cur) }
  -- cur->next_->prev_ = cur->prev_;
  let s2 : State n := { s1 with prev := Function.update s1.prev (s1.next cur) (s1.prev cur) }
  -- cur->next_ = r.next_;
  let s3 : State n := { s2 with next := Function.update s2.next cur (s2.next r) }
  -- cur->prev_ = &r;
  let s4 : State n := { s3 with prev := Function.update s3.prev cur r }
  -- cur->next_->prev_ = cur;
  let s5 : State n := { s4 with prev := Function.update s4.prev (s4.next cur) cur }
  -- cur->prev_->next_ = cur;
  { s5 with next := Function.update s5.next (s5.prev cur) cur }

/-- The `do … while (cur != &l)` splice loop of `connect` (netlist.cc
lines 86-106), with explicit fuel.  `none` means the fuel ran out
before the loop exited. -/
def connectGo {n : ℕ} (l r : Fin n) : ℕ → Fin n → State n → Option (State n)
  | 0, _, _ => none
  | fuel+1, cur, s =>
      -- NetObj::Link*tmp = cur->next_;
      let tmp := s.next cur
      -- if (tmp == &r) break;
      if tmp = r then some s
      else
        let s' := moveAfter s cur r
        -- cur = tmp; } while (cur != &l);
        if tmp = l then some s' else connectGo l r fuel tmp s'

/-- `connect(l, r)` (netlist.cc lines 78-112).  `none` models the
`assert(&l != &r)` failure at entry; the loop is given fuel `2n+1`,
which `connect_terminates` below proves sufficient on every
well-formed state. -/
def connect {n : ℕ} (s : State n) (l r : Fin n) : Option (State n) :=
  if l = r then none else connectGo l r (2*n+1) l s

/-- Forward ring traversal: `q` is reached from `p` by following
`next_` zero or more times. -/
def Reach {n : ℕ} (s : State n) (p q : Fin n) : Prop :=
  ∃ k : ℕ, s.next^[k] p = q

/-- The set of pins on the ring of `p` (the nexus of `p`). -/
def cycleSet {n : ℕ} (s : State n) (p : Fin n) : Set (Fin n) :=
  { q | Reach s p q }

/-- The value of `r.next_` observed by `cur->next_ = r.next_` (step 3
of the splice body), i.e. after the two detach writes. -/
def insTarget {n : ℕ} (s : State n) (cur r : Fin n) : Fin n :=
  Function.update s.next (s.prev cur) (s.next cur) r

/-- A four-pin ring `0 → 1 → 2 → 3 → 0`. -/
def ringFour : State 4 := ⟨![1,2,3,0], ![3,0,1,2]⟩

/-- A two-pin ring `0 ↔ 1`. -/
def ringTwo : State 2 := ⟨![1,0], ![1,0]⟩

/-! ## `NetObj::Link` boolean queries (netlist.cc lines 131-152) -/

/-- `Link::is_linked()`: `next_ != this`. -/
def isLinked {n : ℕ} (s : State n) (p : Fin n) : Bool :=
  if s.next p = p then false else true

/-- The walk of `Link::is_linked(const Link&)`: start at `next_`, stop
when back at `p` (false) or at `q` (true).  Fuel `n` suffices on a
well-formed state, where the ring has at most `n` pins. -/
def isLinkedGo {n : ℕ} (s : State n) (p q : Fin n) : ℕ → Fin n → Bool
  | 0, _ => false
  | fuel+1, idx =>
      if idx = p then false
      else if idx = q then true
      else isLinkedGo s p q fuel (s.next idx)

/-- `Link::is_linked(const Link &that)` (netlist.cc lines 145-152). -/
def isLinkedTo {n : ℕ} (s : State n) (p q : Fin n) : Bool :=
  isLinkedGo s p q n (s.next p)

/-! ## `NetRamDq` ports, the per-memory port list, and `absorb_partners`
(netlist.cc lines 1044-1180)

A port is its pin layout: pin `i` of the port lives at global pin index
`base + i`.  The pin roles follow the constructor exactly:
`0 InClock, 1 OutClock, 2 WE, 3+i Address, 3+awidth+i Data,
3+awidth+width+i Q`, with `pin_count = 3 + 2*width + awidth`. -/

structure RamDq (n : ℕ) where
  base : ℕ
  awidth : ℕ
  width : ℕ
deriving DecidableEq

def RamDq.pin {n : ℕ} (P : RamDq (n+1)) (i : ℕ) : Fin (n+1) :=
  ⟨(P.base + i) % (n+1), Nat.mod_lt _ (Nat.succ_pos n)⟩

def RamDq.pin_InClock {n : ℕ} (P : RamDq (n+1)) : Fin (n+1) := P.pin 0

def RamDq.pin_OutClock {n : ℕ} (P : RamDq (n+1)) : Fin (n+1) := P.pin 1

def RamDq.pin_WE {n : ℕ} (P : RamDq (n+1)) : Fin (n+1) := P.pin 2

def RamDq.pin_Address {n : ℕ} (P : RamDq (n+1)) (idx : ℕ) : Fin (n+1) :=
  P.pin (3 + idx)

def RamDq.pin_Data {n : ℕ} (P : RamDq (n+1)) (idx : ℕ) : Fin (n+1) :=
  P.pin (3 + P.awidth + idx)

def RamDq.pin_Q {n : ℕ} (P : RamDq (n+1)) (idx : ℕ) : Fin (n+1) :=
  P.pin (3 + P.awidth + P.width + idx)

def RamDq.pinCount {n : ℕ} (P : RamDq (n+1)) : ℕ :=
  3 + 2 * P.width + P.awidth

/-- `NetRamDq::count_partners()` (netlist.cc lines 1106-1113): walk the
memory's port list counting every port. -/
def countPartners {n : ℕ} (ram_list : List (RamDq (n+1))) : ℕ :=
  ram_list.length

/-- Apply `connect` to a list of pin pairs in order, propagating the
`assert`/fuel failure of any single call. -/
def connectAll {n : ℕ} : State n → List (Fin n × Fin n) → Option (State n)
  | s, [] => some s
  | s, (a, b) :: ps =>
      match connect s a b with
      | none => none
      | some s2 => connectAll s2 ps

/-- The pin pairs `absorb_partners` connects when a partner is
absorbed, in source order (netlist.cc lines 1164-1174): InClock,
OutClock, WE, every Address pin, then Data and Q interleaved per bit. -/
def RamDq.pairList {n : ℕ} (self cur : RamDq (n+1)) : List (Fin (n+1) × Fin (n+1)) :=
  [(self.pin_InClock, cur.pin_InClock),
   (self.pin_OutClock, cur.pin_OutClock),
   (self.pin_WE, cur.pin_WE)]
  ++ (List.range self.awidth).map (fun idx => (self.pin_Address idx, cur.pin_Address idx))
  ++ (List.range self.width).bind
      (fun idx => [(self.pin_Data idx, cur.pin_Data idx), (self.pin_Q idx, cur.pin_Q idx)])

/-- `delete cur`: the `NetObj` destructor destroys the pin array, and
each `Link` destructor unlinks its pin (C++ destroys array members in
reverse order). -/
def unlinkPort {n : ℕ} (s : State (n+1)) (P : RamDq (n+1)) : State (n+1) :=
  (List.range P.pinCount).reverse.foldl (fun st i => unlink st (P.pin i)) s

/-- The compatibility tests of `absorb_partners` (netlist.cc lines
1123-1160) against candidate `cur`, in source order: all Address pins
pairwise linked; for InClock/OutClock/WE, not (both linked yet not to
each other); for each Data and Q bit, not (both linked yet not to each
other). -/
def RamDq.compatible {n : ℕ} (self cur : RamDq (n+1)) (s : State (n+1)) : Bool :=
  ((List.range self.awidth).all fun idx =>
      isLinkedTo s (self.pin_Address idx) (cur.pin_Address idx))
  && !(isLinked s self.pin_InClock && isLinked s cur.pin_InClock
        && !(isLinkedTo s self.pin_InClock cur.pin_InClock))
  && !(isLinked s self.pin_OutClock && isLinked s cur.pin_OutClock
        && !(isLinkedTo s self.pin_OutClock cur.pin_OutClock))
  && !(isLinked s self.pin_WE && isLinked s cur.pin_WE
        && !(isLinkedTo s self.pin_WE cur.pin_WE))
  && ((List.range self.width).all fun idx =>
      !(isLinked s (self.pin_Data idx) && isLinked s (cur.pin_Data idx)
          && !(isLinkedTo s (self.pin_Data idx) (cur.pin_Data idx))))
  && ((List.range self.width).all fun idx =>
      !(isLinked s (self.pin_Q idx) && isLinked s (cur.pin_Q idx)
          && !(isLinkedTo s (self.pin_Q idx) (cur.pin_Q idx))))

/-- `NetRamDq::absorb_partners()` (netlist.cc lines 1115-1180).  The C
loop walks the memory's port list; a port equal to `this` is skipped,
an incompatible port is kept, and a compatible port has every pin pair
connected, is destroyed (`delete cur` unlinks its pins and removes it
from the list), after which the walk resumes at the saved successor.
That traversal is recursion over the list with the processed port
either kept or dropped. -/
def absorbGo {n : ℕ} (self : RamDq (n+1)) :
    State (n+1) → List (RamDq (n+1)) → Option (State (n+1) × List (RamDq (n+1)))
  | s, [] => some (s, [])
  | s, cur :: rest =>
      if cur = self then
        (absorbGo self s rest).map (fun pr => (pr.1, cur :: pr.2))
      else if self.compatible cur s then
        match connectAll s (self.pairList cur) with
        | none => none
        | some s2 =>
            absorbGo self (unlinkPort s2 cur) rest
      else
        (absorbGo self s rest).map (fun pr => (pr.1, cur :: pr.2))

/-- `A.absorb_partners()` on the port list of `A`'s memory. -/
def absorbPartners {n : ℕ} (self : RamDq (n+1)) (s : State (n+1))
    (ram_list : List (RamDq (n+1))) : Option (State (n+1) × List (RamDq (n+1))) :=
  absorbGo self s ram_list

/-- Scenario of §8.6: Memory of width 8 and 16 words (address width 4);
RamDq `A` then RamDq `B` are constructed on it (`B` is prepended to the
port list), so the pin space holds `2 × (3+2*8+4) = 46` pins. -/
def memPortA : RamDq 46 := ⟨0, 4, 8⟩

def memPortB : RamDq 46 := ⟨23, 4, 8⟩

/-- The §8.6 wiring: every Address pin of `A` connected pairwise to the
one of `B`; all other pins (including both WE pins) left unlinked. -/
def ramScenarioInit : Option (State 46) :=
  connectAll (freshState 46)
    ((List.range 4).map (fun i => (memPortA.pin_Address i, memPortB.pin_Address i)))

/-! ## `NetNet` expression-reference counting and `NetESignal`
(netlist.cc lines 374-434 and 1948-1978) -/

/-- `NetNet::incr_eref()` (line 421). -/
def incr_eref (e : ℕ) : ℕ := e + 1

/-- `NetNet::decr_eref()` (line 426): `assert(eref_count_ > 0)` then
decrement; `none` models the assertion failure. -/
def decr_eref (e : ℕ) : Option ℕ :=
  if 0 < e then some (e - 1) else none

/-- `NetESignal::NetESignal(NetNet*)` (line 1948) increments the
signal's reference counter. -/
def netESignalNew (e : ℕ) : ℕ := incr_eref e

/-- `NetESignal::~NetESignal()` (line 1955) decrements it. -/
def netESignalDestroy (e : ℕ) : Option ℕ := decr_eref e

/-- `NetESignal::dup_expr()` (netlist.cc lines 1975-1978) is
`assert(0)`: duplicating a signal-reference expression aborts and
yields no expression (and no new counter value). -/
def netESignalDup (e : ℕ) : Option ℕ := none

/-- `NetNet::~NetNet()` (line 398): `assert(eref_count_ == 0)`. -/
def netNetDestroy (e : ℕ) : Option Unit :=
  if e = 0 then some () else none

/-! ## `NetUDP` sequential state table (netlist.cc lines 2149-2341)

A state of the fsm is identified by its key string (the map key);
`find_state_` guarantees `st->out == str[0]`, so the key carries the
output.  Transitions (`pins[pin].zer/.one/.xxx`) are a finite map from
(state key, pin, target level) to the target state's key. -/

structure NetUDP where
  sequential : Bool
  pinCount : ℕ
  init : Char
  cm : List (List Char × Char)
  states : List (List Char)
  trans : List ((List Char × ℕ × Char) × List Char)
deriving DecidableEq

/-- `NetUDP::find_state_` (netlist.cc lines 2158-2172): look the key up
and create the state when absent. -/
def NetUDP.findState (u : NetUDP) (key : List Char) : NetUDP :=
  if key ∈ u.states then u else { u with states := u.states ++ [key] }

def NetUDP.transGet (u : NetUDP) (key : List Char) (pin : ℕ) (lv : Char) :
    Option (List Char) :=
  (u.trans.find? (fun e => e.1 = (key, pin, lv))).map (fun e => e.2)

def NetUDP.transSet (u : NetUDP) (key : List Char) (pin : ℕ) (lv : Char)
    (target : List Char) : NetUDP :=
  { u with trans := ((key, pin, lv), target) :: u.trans }

def isLevelChar (c : Char) : Bool := c = '0' || c = '1' || c = 'x'

/-- `frm.find_first_not_of("01x")`. -/
def findFirstNotLevel (l : List Char) : Option ℕ :=
  l.findIdx? (fun c => !(isLevelChar c))

/-- `frm.find_last_not_of("01x")`. -/
def findLastNotLevel (l : List Char) : Option ℕ :=
  match l.reverse.findIdx? (fun c => !(isLevelChar c)) with
  | none => none
  | some j => some (l.length - 1 - j)

/-- The edge-character table of `NetUDP::set_sequ_` (lines 2191-2218):
from/to levels for `r R f F P N`; anything else is `assert(0)`. -/
def edgeChars (c : Char) : Option (Char × Char) :=
  if c = 'r' then some ('0', '1')
  else if c = 'R' then some ('x', '1')
  else if c = 'f' then some ('1', '0')
  else if c = 'F' then some ('x', '0')
  else if c = 'P' then some ('0', 'x')
  else if c = 'N' then some ('1', 'x')
  else none

/-- `NetUDP::set_sequ_` (netlist.cc lines 2179-2248): resolve `-`
output, split the single edge character into from/to levels, create
both states, and fill the transition slot.  `none` models each
assertion failure (no single edge position, an illegal edge character,
or a conflicting transition). -/
def NetUDP.setSequ (u : NetUDP) (input : List Char) (output : Char) : Option NetUDP :=
  match input with
  | [] => none
  | c0 :: _ =>
      let outputR := if output = '-' then c0 else output
      let toStr := input.set 0 outputR
      match findFirstNotLevel input with
      | none => none
      | some edge =>
          if findLastNotLevel input ≠ some edge then none
          else
            match input.get? edge with
            | none => none
            | some ec =>
                match edgeChars ec with
                | none => none
                | some (fc, tc) =>
                    let frm := input.set edge fc
                    let toS := toStr.set edge tc
                    let u1 := (u.findState frm).findState toS
                    match u1.transGet frm edge tc with
                    | some t => if t = toS then some u1 else none
                    | none => some (u1.transSet frm edge tc toS)

/-- Wildcard expansions of `NetUDP::sequ_glob_` (lines 2265-2312). -/
def wildAlternatives (c : Char) : Option (List Char) :=
  if c = '?' then some ['0', '1', 'x']
  else if c = 'n' then some ['f', 'F', 'N']
  else if c = 'p' then some ['r', 'R', 'P']
  else if c = '_' then some ['f', 'F']
  else if c = '*' then some ['r', 'R', 'f', 'F', 'P', 'N']
  else none

def legalSeqChar (c : Char) : Bool :=
  isLevelChar c || c = 'r' || c = 'R' || c = 'f' || c = 'F' || c = 'P' || c = 'N'

/-- `NetUDP::sequ_glob_` (netlist.cc lines 2250-2319): scan for the
first character that is not a plain level or edge; expand a wildcard
recursively over its alternatives (in source order), fail on an
illegal character (`assert(0)`), and hand a fully ground row to
`set_sequ_`.  Each expansion grounds one character, so fuel
`input.length + 1` is ample. -/
def NetUDP.sequGlob (u : NetUDP) : ℕ → List Char → Char → Option NetUDP
  | 0, _, _ => none
  | fuel+1, input, output =>
      match input.findIdx? (fun c => !(legalSeqChar c)) with
      | none => u.setSequ input output
      | some idx =>
          match input.get? idx with
          | none => none
          | some c =>
              match wildAlternatives c with
              | none => none
              | some alts =>
                  alts.foldl (fun acc a =>
                    match acc with
                    | none => none
                    | some u2 => u2.sequGlob fuel (input.set idx a) output) (some u)

/-- `NetUDP::set_table` (netlist.cc lines 2321-2341). -/
def NetUDP.setTable (u : NetUDP) (input : List Char) (output : Char) : Option NetUDP :=
  if output = '0' ∨ output = '1' ∨ (u.sequential ∧ output = '-') then
    if u.sequential then
      if input.length = u.pinCount then u.sequGlob (input.length + 1) input output
      else none
    else
      if input.length = u.pinCount - 1 then some { u with cm := (input, output) :: u.cm }
      else none
  else none

/-- The §8.5 scenario: a fresh sequential UDP whose row strings have
two characters (the output pin and one input pin). -/
def udpScenario : NetUDP := ⟨true, 2, 'x', [], [], []⟩

/-! ## The `Design` signal ring (netlist.cc lines 2495-2524)

Candidate signals are `Fin m`; `sig_next_`/`sig_prev_` become two
functions, and `design_` becomes the `reg` flag. -/

structure SigRing (m : ℕ) where
  head : Option (Fin m)
  nxt : Fin m → Fin m
  prv : Fin m → Fin m
  reg : Fin m → Bool

def emptySigRing (m : ℕ) : SigRing m := ⟨none, id, id, fun _ => false⟩

/-- `Design::add_signal` (netlist.cc lines 2495-2509), write by write;
`none` models `assert(net->design_ == 0)`. -/
def addSignal {m : ℕ} (d : SigRing m) (net : Fin m) : Option (SigRing m) :=
  if d.reg net then none
  else some (
    match d.head with
    | none =>
        -- net->sig_next_ = net; net->sig_prev_ = net;
        { head := some net,
          nxt := Function.update d.nxt net net,
          prv := Function.update d.prv net net,
          reg := Function.update d.reg net true }
    | some h =>
        -- net->sig_next_ = signals_->sig_next_;
        let nxt1 := Function.update d.nxt net (d.nxt h)
        -- net->sig_prev_ = signals_;
        let prv1 := Function.update d.prv net h
        -- net->sig_next_->sig_prev_ = net;
        let prv2 := Function.update prv1 (nxt1 net) net
        -- net->sig_prev_->sig_next_ = net;
        let nxt2 := Function.update nxt1 (prv2 net) net
        -- signals_ = net; net->design_ = this;
        { head := some net, nxt := nxt2, prv := prv2,
          reg := Function.update d.reg net true })

/-- `Design::del_signal` (netlist.cc lines 2511-2524), write by write;
`none` models `assert(net->design_ == this)`. -/
def delSignal {m : ℕ} (d : SigRing m) (net : Fin m) : Option (SigRing m) :=
  if d.reg net then
    -- if (signals_ == net) signals_ = net->sig_prev_;
    let signals1 : Option (Fin m) := if d.head = some net then some (d.prv net) else d.head
    -- if (signals_ == net) { signals_ = 0; } else { bridge the neighbors }
    if signals1 = some net then
      some { d with head := none, reg := Function.update d.reg net false }
    else
      -- net->sig_prev_->sig_next_ = net->sig_next_;
      let nxt1 := Function.update d.nxt (d.prv net) (d.nxt net)
      -- net->sig_next_->sig_prev_ = net->sig_prev_;
      let prv1 := Function.update d.prv (nxt1 net) (d.prv net)
      some { head := signals1, nxt := nxt1, prv := prv1,
             reg := Function.update d.reg net false }
  else none

inductive SigOp (m : ℕ) where
  | add (x : Fin m)
  | del (x : Fin m)
deriving DecidableEq

/-- One `add_signal`/`del_signal` call, threaded through the failure
of any earlier call. -/
def stepSig {m : ℕ} (acc : Option (SigRing m)) (op : SigOp m) : Option (SigRing m) :=
  match acc with
  | none => none
  | some d =>
      match op with
      | SigOp.add x => addSignal d x
      | SigOp.del x => delSignal d x

/-- Run a sequence of `add_signal`/`del_signal` calls from a fresh
`Design` (`signals_(0)`). -/
def runSigOps {m : ℕ} (ops : List (SigOp m)) : Option (SigRing m) :=
  ops.foldl stepSig (some (emptySigRing m))

/-- The consecutive-pointer condition along a list: each element's
`sig_next_` is the next list element and its `sig_prev_` points back. -/
def IsChain {m : ℕ} (d : SigRing m) : List (Fin m) → Prop
  | [] => True
  | [_] => True
  | a :: b :: rest => (d.nxt a = b ∧ d.prv b = a) ∧ IsChain d (b :: rest)

/-- `L` lists the signal ring in `sig_next_` order starting at the head
pointer, with the circular wrap-around closing the ring. -/
def IsRingList {m : ℕ} (d : SigRing m) : List (Fin m) → Prop
  | [] => d.head = none
  | x :: xs => d.head = some x ∧ IsChain d (x :: xs) ∧
      d.nxt ((x :: xs).getLast (List.cons_ne_nil x xs)) = x ∧
      d.prv x = (x :: xs).getLast (List.cons_ne_nil x xs)

/-- The signal-ring representation invariant: some duplicate-free list
enumerates exactly the registered signals as one circular ring. -/
def RingInv {m : ℕ} (d : SigRing m) : Prop :=
  ∃ L : List (Fin m), L.Nodup ∧ (∀ x, d.reg x = true ↔ x ∈ L) ∧ IsRingList d L

/-! ## `Design` parameters and hierarchical lookup (netlist.cc lines
2454-2484).  Keys are dotted paths as character lists; the parameter
table is an association list whose most recent binding wins, matching
`map` assignment. -/

/-- `root.rfind('.')`: the index of the last dot, or `none` for the
`npos` result (which the caller's `pos > root.length()` test detects). -/
def rfindDot : (l : List Char) → Option {i : ℕ // i < l.length}
  | [] => none
  | c :: rest =>
      match rfindDot rest with
      | some p => some ⟨p.1 + 1, by simpa using Nat.succ_lt_succ p.2⟩
      | none => if c = '.' then some ⟨0, by simp⟩ else none

def assocFind {α : Type} : List (List Char × α) → List Char → Option α
  | [], _ => none
  | (k, v) :: rest, key => if k = key then some v else assocFind rest key

/-- `Design::set_parameter` (netlist.cc lines 2454-2457):
`parameters_[key] = expr`. -/
def setParameter {α : Type} (ps : List (List Char × α)) (key : List Char) (e : α) :
    List (List Char × α) :=
  (key, e) :: ps

/-- `Design::find_parameter` (netlist.cc lines 2463-2484): look up
`root + "." + name`; on a miss, cut `root` at its last dot and retry;
give up when `root` has no dot left. -/
def findParameter {α : Type} (ps : List (List Char × α)) (root name : List Char) :
    Option α :=
  match assocFind ps (root ++ '.' :: name) with
  | some e => some e
  | none =>
      match rfindDot root with
      | none => none
      | some pos => findParameter ps (root.take pos.1) name
termination_by root.length
decreasing_by
  have h := pos.2
  simp only [List.length_take]
  omega

/-- The probe sequence the upward search scans: `root`, then `root`
shortened at its last dot, and so on. -/
def prefixChain (root : List Char) : List (List Char) :=
  root :: (match rfindDot root with
  | none => []
  | some pos => prefixChain (root.take pos.1))
termination_by root.length
decreasing_by
  have h := pos.2
  simp only [List.length_take]
  omega

/-- From the spec's words, for comparison with `findParameter`: the
upward search scans the probe sequence, looks up each probe joined with
the name, and returns the first binding found (not-found when no
prefix matches). -/
def specParamSearch {α : Type} (ps : List (List Char × α)) (name : List Char) :
    List (List Char) → Option α
  | [] => none
  | p :: rest =>
      match assocFind ps (p ++ '.' :: name) with
      | some e => some e
      | none => specParamSearch ps name rest

/-! ## `NetEBAdd` width negotiation (netlist.cc lines 1680-1699) -/

/-- Modelled from the spec: the virtual `set_width` methods of the
expression subclasses are not in src/ (netlist.cc only calls them; its
own notes at lines 2896 and 2984 say they live in a separate file).
Following §3/§4.3, which treat `set_width` as a request that an
expression adjust its width, an operand is its current width together
with an arbitrary response function `setw current requested` giving
the width after the call. -/
structure WOp where
  w : ℕ
  setw : ℕ → ℕ → ℕ

def applySetw (o : WOp) (req : ℕ) : WOp := { o with w := o.setw o.w req }

/-- `NetEBAdd::NetEBAdd` width logic (netlist.cc lines 1680-1699): four
guarded `set_width` calls re-reading widths between the calls, then
width 0 when the operand widths still differ, else the common width. -/
def mkNetEBAdd (l0 r0 : WOp) : WOp × WOp × ℕ :=
  -- if (l->expr_width() > r->expr_width()) r->set_width(l->expr_width());
  let r1 := if r0.w < l0.w then applySetw r0 l0.w else r0
  -- if (r->expr_width() > l->expr_width()) l->set_width(r->expr_width());
  let l1 := if l0.w < r1.w then applySetw l0 r1.w else l0
  -- if (l->expr_width() < r->expr_width()) r->set_width(l->expr_width());
  let r2 := if l1.w < r1.w then applySetw r1 l1.w else r1
  -- if (r->expr_width() < l->expr_width()) l->set_width(r->expr_width());
  let l2 := if r2.w < l1.w then applySetw l1 r2.w else l1
  -- if (r->expr_width() != l->expr_width()) expr_width(0); else …
  (l2, r2, if r2.w ≠ l2.w then 0 else l2.w)

/-! ## `NetAssignNB` width check (netlist.cc lines 1320-1331) -/

structure AssignNBResult where
  errors : ℕ
  diagnostic : Bool
  rvalAttached : Bool
deriving DecidableEq

/-- `NetAssignNB::NetAssignNB(n, des, w, rv)` (netlist.cc lines
1320-1331): when `rv->expr_width() < w` it prints a diagnostic and
increments `des->errors`; in every case `set_rval(rv)` attaches the
r-value. -/
def netAssignNB (errors w rvWidth : ℕ) : AssignNBResult :=
  if rvWidth < w then ⟨errors + 1, true, true⟩ else ⟨errors, false, true⟩

section ReachBasics

variable {n : ℕ} {s : State n}

theorem wfState.next_prev (h : wfState s) (x : Fin n) : s.next (s.prev x) = x :=
  (h x).2

theorem wfState.prev_next (h : wfState s) (x : Fin n) : s.prev (s.next x) = x :=
  (h x).1

theorem wfState.next_injective (h : wfState s) : Function.Injective s.next :=
  Function.LeftInverse.injective (g := s.prev) fun x => (h x).1

theorem wfState.prev_injective (h : wfState s) : Function.Injective s.prev :=
  Function.LeftInverse.injective (g := s.next) fun x => (h x).2

theorem reach_refl (p : Fin n) : Reach s p p := ⟨0, rfl⟩

theorem reach_step (p : Fin n) : Reach s p (s.next p) := ⟨1, rfl⟩

theorem reach_trans {p q t : Fin n} (h1 : Reach s p q) (h2 : Reach s q t) :
    Reach s p t := by
  obtain ⟨k, hk⟩ := h1
  obtain ⟨m, hm⟩ := h2
  exact ⟨m + k, by rw [Function.iterate_add_apply, hk, hm]⟩

/-- On a finite pin population, following `next_` from any pin
eventually returns to it (pigeonhole on the iterates). -/
theorem exists_period (h : wfState s) (p : Fin n) :
    ∃ T : ℕ, 0 < T ∧ s.next^[T] p = p := by
  have hcard : Fintype.card (Fin n) < Fintype.card (Fin (n + 1)) := by
    simp
  obtain ⟨i, j, hij, hmap⟩ :=
    Fintype.exists_ne_map_eq_of_card_lt (fun i : Fin (n + 1) => s.next^[(i : ℕ)] p) hcard
  rcases Nat.lt_or_ge (i : ℕ) (j : ℕ) with hlt | hge
  · refine ⟨(j : ℕ) - (i : ℕ), by omega, ?_⟩
    have hinj : Function.Injective (s.next^[(i : ℕ)]) := h.next_injective.iterate _
    apply hinj
    rw [← Function.iterate_add_apply]
    have : (i : ℕ) + ((j : ℕ) - (i : ℕ)) = (j : ℕ) := by omega
    rw [this, ← hmap]
  · have hlt : (j : ℕ) < (i : ℕ) := by
      rcases Nat.lt_or_ge (j : ℕ) (i : ℕ) with h' | h'
      · exact h'
      · exact absurd (Fin.ext (by omega)) hij
    refine ⟨(i : ℕ) - (j : ℕ), by omega, ?_⟩
    have hinj : Function.Injective (s.next^[(j : ℕ)]) := h.next_injective.iterate _
    apply hinj
    rw [← Function.iterate_add_apply]
    have : (j : ℕ) + ((i : ℕ) - (j : ℕ)) = (i : ℕ) := by omega
    rw [this, hmap]

theorem reach_symm (h : wfState s) {p q : Fin n} (hr : Reach s p q) :
    Reach s q p := by
  obtain ⟨k, hk⟩ := hr
  obtain ⟨T, hT, hfix⟩ := exists_period h p
  refine ⟨k * T - k, ?_⟩
  have hTk : s.next^[k * T] p = p := by
    have : s.next^[k * T] p = (s.next^[T])^[k] p := by
      rw [← Function.iterate_mul, Nat.mul_comm]
    rw [this]
    exact Function.iterate_fixed hfix k
  calc s.next^[k * T - k] q = s.next^[k * T - k] (s.next^[k] p) := by rw [hk]
    _ = s.next^[k * T - k + k] p := by rw [← Function.iterate_add_apply]
    _ = s.next^[k * T] p := by congr 1; have : k ≤ k * T := Nat.le_mul_of_pos_right k hT; omega
    _ = p := hTk

theorem cycleSet_eq_of_reach (h : wfState s) {p q : Fin n} (hr : Reach s p q) :
    cycleSet s p = cycleSet s q := by
  ext x
  constructor
  · intro hx
    exact reach_trans (reach_symm h hr) hx
  · intro hx
    exact reach_trans hr hx

theorem mem_cycleSet_self (p : Fin n) : p ∈ cycleSet s p := reach_refl p

/-- A pin whose `next_` is itself forms a singleton ring. -/
theorem cycleSet_singleton {p : Fin n} (hp : s.next p = p) :
    cycleSet s p = {p} := by
  ext x
  simp only [cycleSet, Set.mem_setOf_eq, Set.mem_singleton_iff]
  constructor
  · rintro ⟨k, hk⟩
    rw [Function.iterate_fixed hp k] at hk
    exact hk.symm
  · rintro rfl
    exact reach_refl _

end ReachBasics

/-! ## Characterization of one splice step

`moveAfter s cur r` performs six pointer writes.  Reading `r.next_` at
step 3 happens after the detach writes, so the inserted pin's new
successor is `insTarget`, the post-detach successor of `r`. -/

section MoveChar

variable {n : ℕ} {s : State n} {cur r : Fin n}

theorem insTarget_eq :
    insTarget s cur r = if r = s.prev cur then s.next cur else s.next r := by
  rw [insTarget, Function.update_apply]

theorem prev_eq_iff_next_eq (hwf : wfState s) {x : Fin n} :
    s.prev x = x ↔ s.next x = x := by
  constructor
  · intro h
    conv_lhs => rw [← h]
    exact hwf.next_prev x
  · intro h
    conv_lhs => rw [← h]
    exact hwf.prev_next x

theorem insTarget_ne_cur (hwf : wfState s) (hcr : cur ≠ r) :
    insTarget s cur r ≠ cur := by
  rw [insTarget_eq]
  split_ifs with h
  · intro hb
    have hpc : s.prev cur = cur := by
      have := hwf.prev_next cur
      rw [hb] at this
      exact this
    rw [hpc] at h
    exact hcr h.symm
  · intro hb
    apply h
    rw [← hb]
    exact (hwf.prev_next r).symm

theorem moveAfter_next_eq (hwf : wfState s) (hcr : cur ≠ r) :
    (moveAfter s cur r).next =
      Function.update (Function.update (Function.update s.next (s.prev cur) (s.next cur))
        cur (insTarget s cur r)) r cur := by
  have hself : Function.update s.next (s.prev cur) (s.next cur) cur = s.next cur := by
    rw [Function.update_apply]
    split_ifs <;> rfl
  have hit : insTarget s cur r ≠ cur := insTarget_ne_cur hwf hcr
  have hcc : ¬ cur = Function.update s.next (s.prev cur) (s.next cur) r :=
    fun h => hit h.symm
  -- the pin written by the final `cur->prev_->next_ = cur` is `r`
  have hS : (Function.update (Function.update (Function.update s.prev (s.next cur) (s.prev cur))
      cur r) (Function.update s.next (s.prev cur) (s.next cur) r) cur) cur = r := by
    rw [Function.update_apply, if_neg hcc, Function.update_same]
  unfold moveAfter
  dsimp only
  rw [hself, Function.update_same, hS]
  rfl

theorem moveAfter_prev_eq (hwf : wfState s) (hcr : cur ≠ r) :
    (moveAfter s cur r).prev =
      Function.update (Function.update (Function.update s.prev (s.next cur) (s.prev cur))
        cur r) (insTarget s cur r) cur := by
  have hself : Function.update s.next (s.prev cur) (s.next cur) cur = s.next cur := by
    rw [Function.update_apply]
    split_ifs <;> rfl
  unfold moveAfter
  dsimp only
  rw [hself, Function.update_same]
  rfl

theorem moveAfter_next_apply (hwf : wfState s) (hcr : cur ≠ r) (x : Fin n) :
    (moveAfter s cur r).next x =
      if x = r then cur
      else if x = cur then insTarget s cur r
      else if x = s.prev cur then s.next cur
      else s.next x := by
  rw [moveAfter_next_eq hwf hcr]
  simp only [Function.update_apply]

theorem moveAfter_prev_apply (hwf : wfState s) (hcr : cur ≠ r) (x : Fin n) :
    (moveAfter s cur r).prev x =
      if x = insTarget s cur r then cur
      else if x = cur then r
      else if x = s.next cur then s.prev cur
      else s.prev x := by
  rw [moveAfter_prev_eq hwf hcr]
  simp only [Function.update_apply]

theorem moveAfter_next_r (hwf : wfState s) (hcr : cur ≠ r) :
    (moveAfter s cur r).next r = cur := by
  rw [moveAfter_next_apply hwf hcr, if_pos rfl]

theorem moveAfter_next_cur (hwf : wfState s) (hcr : cur ≠ r) :
    (moveAfter s cur r).next cur = insTarget s cur r := by
  rw [moveAfter_next_apply hwf hcr, if_neg hcr, if_pos rfl]

theorem moveAfter_prev_cur (hwf : wfState s) (hcr : cur ≠ r) :
    (moveAfter s cur r).prev cur = r := by
  rw [moveAfter_prev_apply hwf hcr,
    if_neg (fun h => insTarget_ne_cur hwf hcr h.symm), if_pos rfl]

theorem moveAfter_prev_insTarget (hwf : wfState s) (hcr : cur ≠ r) :
    (moveAfter s cur r).prev (insTarget s cur r) = cur := by
  rw [moveAfter_prev_apply hwf hcr, if_pos rfl]

/-- The splice body preserves the ring invariant for every pin. -/
theorem wfState_moveAfter (hwf : wfState s) (hcr : cur ≠ r) :
    wfState (moveAfter s cur r) := by
  have hit : insTarget s cur r ≠ cur := insTarget_ne_cur hwf hcr
  have hsing : s.prev cur = cur ↔ s.next cur = cur := prev_eq_iff_next_eq hwf
  have hna : s.next (s.prev cur) = cur := hwf.next_prev cur
  have hpb : s.prev (s.next cur) = cur := hwf.prev_next cur
  have hN := moveAfter_next_apply hwf hcr
  have hP := moveAfter_prev_apply hwf hcr
  intro x
  constructor
  · -- prev' (next' x) = x
    rw [hN]
    by_cases hxr : x = r
    · rw [if_pos hxr, hP, if_neg (fun h => hit h.symm), if_pos rfl, hxr]
    rw [if_neg hxr]
    by_cases hxc : x = cur
    · rw [if_pos hxc, hP, if_pos rfl, hxc]
    rw [if_neg hxc]
    by_cases hxa : x = s.prev cur
    · rw [if_pos hxa, hP]
      have hra : r ≠ s.prev cur := fun h => hxr (hxa.trans h.symm)
      have hbit : s.next cur ≠ insTarget s cur r := by
        rw [insTarget_eq, if_neg hra]
        intro h
        exact hcr (hwf.next_injective h)
      have hbc : s.next cur ≠ cur := fun h => hxc (hxa.trans (hsing.mpr h))
      rw [if_neg hbit, if_neg hbc, if_pos rfl, hxa]
    rw [if_neg hxa, hP]
    have h1 : s.next x ≠ insTarget s cur r := by
      rw [insTarget_eq]
      split_ifs with hra
      · exact fun h => hxc (hwf.next_injective h)
      · exact fun h => hxr (hwf.next_injective h)
    have h2 : s.next x ≠ cur := fun h => hxa (by rw [← h, hwf.prev_next])
    have h3 : s.next x ≠ s.next cur := fun h => hxc (hwf.next_injective h)
    rw [if_neg h1, if_neg h2, if_neg h3, hwf.prev_next]
  · -- next' (prev' x) = x
    rw [hP]
    by_cases hxi : x = insTarget s cur r
    · rw [if_pos hxi, hN, if_neg hcr, if_pos rfl, hxi]
    rw [if_neg hxi]
    by_cases hxc : x = cur
    · rw [if_pos hxc, hN, if_pos rfl, hxc]
    rw [if_neg hxc]
    by_cases hxb : x = s.next cur
    · rw [if_pos hxb, hN]
      have hra : s.prev cur ≠ r := by
        intro h
        apply hxi
        rw [insTarget_eq, if_pos h.symm, hxb]
      have hac : s.prev cur ≠ cur := fun h => hxc (hxb.trans (hsing.mp h))
      rw [if_neg hra, if_neg hac, if_pos rfl, hxb]
    rw [if_neg hxb, hN]
    have h1 : s.prev x ≠ r := by
      intro h
      by_cases hra : r = s.prev cur
      · exact hxc (by rw [← hna, ← hra, ← h, hwf.next_prev])
      · apply hxi
        rw [insTarget_eq, if_neg hra, ← h, hwf.next_prev]
    have h2 : s.prev x ≠ cur := fun h => hxb (by rw [← h, hwf.next_prev])
    have h3 : s.prev x ≠ s.prev cur := fun h => hxc (hwf.prev_injective h)
    rw [if_neg h1, if_neg h2, if_neg h3, hwf.next_prev]

end MoveChar

/-! ## Ring-membership surgery for one splice step

Moving `cur` to sit right after `r` extracts `cur` from its ring and
inserts it into `r`'s ring; every other pin keeps its mutual
reachability relations. -/

section MoveReach

variable {n : ℕ} {s : State n} {cur r : Fin n}

theorem prev_cur_eq_r_iff (hwf : wfState s) :
    s.prev cur = r ↔ s.next r = cur := by
  constructor
  · intro h
    rw [← h]
    exact hwf.next_prev cur
  · intro h
    rw [← h]
    exact hwf.prev_next r

theorem next_cur_eq_cur_of_prev (hwf : wfState s) (h : s.prev cur = cur) :
    s.next cur = cur := (prev_eq_iff_next_eq hwf).mp h

/-- `r` reaches its post-detach successor in the original state. -/
theorem reach_r_insTarget (hwf : wfState s) (hcr : cur ≠ r) :
    Reach s r (insTarget s cur r) := by
  rw [insTarget_eq]
  by_cases ha : r = s.prev cur
  · rw [if_pos ha]
    -- r = prev cur, so next r = cur and next cur comes two steps after r
    have h1 : s.next r = cur := (prev_cur_eq_r_iff hwf).mp ha.symm
    refine ⟨2, ?_⟩
    show s.next (s.next r) = s.next cur
    rw [h1]
  · rw [if_neg ha]
    exact reach_step r

/-- In the moved state, `r`'s successor is `cur`. -/
theorem reach_moveAfter_r_cur (hwf : wfState s) (hcr : cur ≠ r) :
    Reach (moveAfter s cur r) r cur :=
  ⟨1, by simp [moveAfter_next_r hwf hcr]⟩

/-- Old-state paths between pins other than `cur` survive the move. -/
theorem reach_moveAfter_of_reach (hwf : wfState s) (hcr : cur ≠ r) :
    ∀ k x y, s.next^[k] x = y → x ≠ cur → y ≠ cur →
      Reach (moveAfter s cur r) x y := by
  intro k
  induction k using Nat.strong_induction_on with
  | _ k ih =>
    intro x y hk hx hy
    match k, hk with
    | 0, hk =>
      rw [Function.iterate_zero_apply] at hk
      exact hk ▸ reach_refl x
    | k+1, hk =>
      rw [Function.iterate_succ_apply] at hk
      by_cases hz : s.next x = cur
      · -- the old path passes through cur here: x must be prev cur
        have hxa : x = s.prev cur := by rw [← hz, hwf.prev_next]
        match k, hk with
        | 0, hk =>
          rw [Function.iterate_zero_apply] at hk
          exact absurd (hz ▸ hk).symm hy
        | k+1, hk =>
          rw [Function.iterate_succ_apply, hz] at hk
          -- continue from b = next cur; b ≠ cur since x ≠ cur
          have hbc : s.next cur ≠ cur := by
            intro h
            exact hx (hxa.trans ((prev_eq_iff_next_eq hwf).mpr h))
          have htail : Reach (moveAfter s cur r) (s.next cur) y :=
            ih k (by omega) (s.next cur) y hk hbc hy
          refine reach_trans ?_ htail
          by_cases har : x = r
          · -- a = r: the moved state goes r -> cur -> next cur
            have h1 : (moveAfter s cur r).next x = cur := by
              rw [har]
              exact moveAfter_next_r hwf hcr
            have h2 : (moveAfter s cur r).next cur = s.next cur := by
              rw [moveAfter_next_cur hwf hcr, insTarget_eq,
                if_pos (har.symm.trans hxa)]
            exact ⟨2, by
              rw [Function.iterate_succ_apply, Function.iterate_one, h1, h2]⟩
          · -- a ≠ r: the moved state skips cur: a -> next cur
            have h1 : (moveAfter s cur r).next x = s.next cur := by
              rw [moveAfter_next_apply hwf hcr, if_neg har, if_neg hx, if_pos hxa]
            exact ⟨1, by rw [Function.iterate_one, h1]⟩
      · -- next x ≠ cur: the step is preserved (possibly via cur when x = r)
        have htail : Reach (moveAfter s cur r) (s.next x) y :=
          ih k (by omega) (s.next x) y hk hz hy
        refine reach_trans ?_ htail
        by_cases har : x = r
        · -- x = r with next r ≠ cur: moved state goes r -> cur -> insTarget = next r
          have hra : ¬ r = s.prev cur := by
            intro h
            exact hz (har ▸ ((prev_cur_eq_r_iff hwf).mp h.symm))
          have h1 : (moveAfter s cur r).next x = cur := by
            rw [har]
            exact moveAfter_next_r hwf hcr
          have h2 : (moveAfter s cur r).next cur = s.next x := by
            rw [moveAfter_next_cur hwf hcr, insTarget_eq, if_neg hra, har]
          exact ⟨2, by rw [Function.iterate_succ_apply, Function.iterate_one, h1, h2]⟩
        · have hxa : x ≠ s.prev cur := by
            intro h
            exact hz (by rw [h, hwf.next_prev])
          have h1 : (moveAfter s cur r).next x = s.next x := by
            rw [moveAfter_next_apply hwf hcr, if_neg har, if_neg hx, if_neg hxa]
          exact ⟨1, by rw [Function.iterate_one, h1]⟩

/-- Moved-state paths between pins other than `cur` existed before the
move. -/
theorem reach_of_reach_moveAfter (hwf : wfState s) (hcr : cur ≠ r) :
    ∀ k x y, (moveAfter s cur r).next^[k] x = y → x ≠ cur → y ≠ cur →
      Reach s x y := by
  intro k
  induction k using Nat.strong_induction_on with
  | _ k ih =>
    intro x y hk hx hy
    match k, hk with
    | 0, hk =>
      rw [Function.iterate_zero_apply] at hk
      exact hk ▸ reach_refl x
    | k+1, hk =>
      rw [Function.iterate_succ_apply] at hk
      by_cases har : x = r
      · -- moved state: r -> cur, and the path must continue to insTarget
        have h1 : (moveAfter s cur r).next x = cur := by
          rw [har]
          exact moveAfter_next_r hwf hcr
        rw [h1] at hk
        match k, hk with
        | 0, hk =>
          rw [Function.iterate_zero_apply] at hk
          exact absurd hk.symm hy
        | k+1, hk =>
          rw [Function.iterate_succ_apply, moveAfter_next_cur hwf hcr] at hk
          have hit : insTarget s cur r ≠ cur := insTarget_ne_cur hwf hcr
          have htail : Reach s (insTarget s cur r) y :=
            ih k (by omega) (insTarget s cur r) y hk hit hy
          have hhead : Reach s x (insTarget s cur r) := by
            rw [har]
            exact reach_r_insTarget hwf hcr
          exact reach_trans hhead htail
      · by_cases hxa : x = s.prev cur
        · -- moved state: a -> next cur, the old state went a -> cur -> next cur
          have h1 : (moveAfter s cur r).next x = s.next cur := by
            rw [moveAfter_next_apply hwf hcr, if_neg har, if_neg hx, if_pos hxa]
          rw [h1] at hk
          have hbc : s.next cur ≠ cur := by
            intro h
            exact hx (hxa.trans ((prev_eq_iff_next_eq hwf).mpr h))
          have htail : Reach s (s.next cur) y :=
            ih k (by omega) (s.next cur) y hk hbc hy
          refine reach_trans ?_ htail
          exact ⟨2, by
            rw [Function.iterate_succ_apply, Function.iterate_one, hxa, hwf.next_prev]⟩
        · have h1 : (moveAfter s cur r).next x = s.next x := by
            rw [moveAfter_next_apply hwf hcr, if_neg har, if_neg hx, if_neg hxa]
          rw [h1] at hk
          by_cases hz : s.next x = cur
          · have hxp : x = s.prev cur := by
              rw [← hz, hwf.prev_next]
            exact absurd hxp hxa
          · have htail : Reach s (s.next x) y := ih k (by omega) (s.next x) y hk hz hy
            exact reach_trans (reach_step x) htail

theorem reach_moveAfter_iff (hwf : wfState s) (hcr : cur ≠ r) {x y : Fin n}
    (hx : x ≠ cur) (hy : y ≠ cur) :
    Reach (moveAfter s cur r) x y ↔ Reach s x y := by
  constructor
  · rintro ⟨k, hk⟩
    exact reach_of_reach_moveAfter hwf hcr k x y hk hx hy
  · rintro ⟨k, hk⟩
    exact reach_moveAfter_of_reach hwf hcr k x y hk hx hy

/-- What `cur` reaches after the move: itself, plus everything `r`
reached before. -/
theorem reach_moveAfter_cur_iff (hwf : wfState s) (hcr : cur ≠ r) {y : Fin n} :
    Reach (moveAfter s cur r) cur y ↔ (y = cur ∨ Reach s r y) := by
  have hit : insTarget s cur r ≠ cur := insTarget_ne_cur hwf hcr
  constructor
  · rintro ⟨k, hk⟩
    match k, hk with
    | 0, hk =>
      exact Or.inl hk.symm
    | k+1, hk =>
      rw [Function.iterate_succ_apply, moveAfter_next_cur hwf hcr] at hk
      by_cases hy : y = cur
      · exact Or.inl hy
      · refine Or.inr (reach_trans (reach_r_insTarget hwf hcr) ?_)
        exact reach_of_reach_moveAfter hwf hcr k _ y hk hit hy
  · rintro (rfl | hry)
    · exact reach_refl _
    · by_cases hy : y = cur
      · rw [hy]
        exact reach_refl _
      · have hiy : Reach s (insTarget s cur r) y :=
          reach_trans (reach_symm hwf (reach_r_insTarget hwf hcr)) hry
        have hstep : Reach (moveAfter s cur r) cur (insTarget s cur r) :=
          ⟨1, by rw [Function.iterate_one, moveAfter_next_cur hwf hcr]⟩
        refine reach_trans hstep ?_
        obtain ⟨k, hk⟩ := hiy
        exact reach_moveAfter_of_reach hwf hcr k _ y hk hit hy

end MoveReach

/-! ## Cycle sets across one splice step, and distances -/

section MoveCycle

variable {n : ℕ} {s : State n} {cur r : Fin n}

/-- After the move, `r`'s ring is its old ring plus `cur`. -/
theorem cycleSet_moveAfter_r (hwf : wfState s) (hcr : cur ≠ r) :
    cycleSet (moveAfter s cur r) r = cycleSet s r ∪ {cur} := by
  ext x
  by_cases hx : x = cur
  · subst hx
    constructor
    · intro _
      exact Set.mem_union_right _ rfl
    · intro _
      exact reach_moveAfter_r_cur hwf hcr
  · constructor
    · intro h
      exact Set.mem_union_left _
        ((reach_moveAfter_iff hwf hcr (fun hh => hcr hh.symm) hx).mp h)
    · intro h
      rcases h with h | h
      · exact (reach_moveAfter_iff hwf hcr (fun hh => hcr hh.symm) hx).mpr h
      · exact absurd h hx

/-- After moving `cur` out of a ring that does not contain `r`, the
pins that stay behind form that ring minus `cur`. -/
theorem cycleSet_moveAfter_remnant (hwf : wfState s) (hcr : cur ≠ r) {tmp : Fin n}
    (htc : tmp ≠ cur) (hrt : ¬ Reach s r tmp) (hct : Reach s cur tmp) :
    cycleSet (moveAfter s cur r) tmp = cycleSet s cur \ {cur} := by
  have hwf2 : wfState (moveAfter s cur r) := wfState_moveAfter hwf hcr
  ext x
  by_cases hx : x = cur
  · subst hx
    constructor
    · intro h
      have h2 := reach_symm hwf2 h
      rcases (reach_moveAfter_cur_iff hwf hcr).mp h2 with h3 | h3
      · exact absurd h3 htc
      · exact absurd h3 hrt
    · rintro ⟨-, h⟩
      exact absurd rfl h
  · constructor
    · intro h
      refine ⟨?_, hx⟩
      exact reach_trans hct ((reach_moveAfter_iff hwf hcr htc hx).mp h)
    · rintro ⟨h, -⟩
      exact (reach_moveAfter_iff hwf hcr htc hx).mpr
        (reach_trans (reach_symm hwf hct) h)

/-- Pigeonhole with an explicit bound: the period of any pin under
`next_` is at most `n`. -/
theorem exists_period_le (h : wfState s) (p : Fin n) :
    ∃ T : ℕ, 0 < T ∧ T ≤ n ∧ s.next^[T] p = p := by
  have hcard : Fintype.card (Fin n) < Fintype.card (Fin (n + 1)) := by simp
  obtain ⟨i, j, hij, hmap⟩ :=
    Fintype.exists_ne_map_eq_of_card_lt (fun i : Fin (n + 1) => s.next^[(i : ℕ)] p) hcard
  rcases Nat.lt_or_ge (i : ℕ) (j : ℕ) with hlt | hge
  · refine ⟨(j : ℕ) - (i : ℕ), by omega, by omega, ?_⟩
    have hinj : Function.Injective (s.next^[(i : ℕ)]) := h.next_injective.iterate _
    apply hinj
    rw [← Function.iterate_add_apply]
    have heq : (i : ℕ) + ((j : ℕ) - (i : ℕ)) = (j : ℕ) := by omega
    rw [heq, ← hmap]
  · have hlt : (j : ℕ) < (i : ℕ) := by
      rcases Nat.lt_or_ge (j : ℕ) (i : ℕ) with h' | h'
      · exact h'
      · exact absurd (Fin.ext (by omega)) hij
    refine ⟨(i : ℕ) - (j : ℕ), by omega, by omega, ?_⟩
    have hinj : Function.Injective (s.next^[(j : ℕ)]) := h.next_injective.iterate _
    apply hinj
    rw [← Function.iterate_add_apply]
    have heq : (j : ℕ) + ((i : ℕ) - (j : ℕ)) = (i : ℕ) := by omega
    rw [heq, hmap]

/-- A reachable pin is reachable by a minimal path of length `< n`. -/
theorem exists_min_dist (hwf : wfState s) {p q : Fin n} (h : Reach s p q) :
    ∃ d, d < n ∧ s.next^[d] p = q ∧ ∀ j < d, s.next^[j] p ≠ q := by
  classical
  have hd0 : s.next^[Nat.find h] p = q := Nat.find_spec h
  have hmin : ∀ j < Nat.find h, s.next^[j] p ≠ q := fun j hj => Nat.find_min h hj
  refine ⟨Nat.find h, ?_, hd0, hmin⟩
  by_contra hge
  push_neg at hge
  obtain ⟨T, hT0, hTn, hTfix⟩ := exists_period_le hwf p
  have hsplit : s.next^[Nat.find h] p = s.next^[Nat.find h - T] p := by
    conv_lhs => rw [show Nat.find h = (Nat.find h - T) + T by omega]
    rw [Function.iterate_add_apply, hTfix]
  exact hmin (Nat.find h - T) (by omega) (hsplit ▸ hd0)

/-- Distance transfer for the splice loop: if the shortest forward path
from `cur` to `r` has length `d ≥ 2`, then after moving `cur` the path
from `cur`'s old successor to `r` has length `d - 1`. -/
theorem moveAfter_dist (hwf : wfState s) (hcr : cur ≠ r) (hbr : s.next cur ≠ r)
    {d : ℕ} (hd : s.next^[d] cur = r) (hmin : ∀ j < d, s.next^[j] cur ≠ r) :
    (moveAfter s cur r).next^[d-1] (s.next cur) = r := by
  have hd0 : d ≠ 0 := by
    rintro rfl
    exact hcr hd
  have hd1 : d ≠ 1 := by
    rintro rfl
    rw [Function.iterate_one] at hd
    exact hbr hd
  have hmid : ∀ j, 1 ≤ j → j ≤ d - 1 →
      s.next^[j] cur ≠ r ∧ s.next^[j] cur ≠ cur ∧ s.next^[j] cur ≠ s.prev cur := by
    intro j hj1 hj2
    refine ⟨hmin j (by omega), ?_, ?_⟩
    · intro h
      have hsplit : s.next^[d] cur = s.next^[d-j] cur := by
        conv_lhs => rw [show d = (d-j) + j by omega]
        rw [Function.iterate_add_apply, h]
      exact hmin (d-j) (by omega) (hsplit ▸ hd)
    · intro h
      have hc : s.next^[j+1] cur = cur := by
        rw [Function.iterate_succ_apply', h, hwf.next_prev]
      by_cases hjd : j + 1 = d
      · refine hcr ?_
        rw [← hd, ← hjd, hc]
      · have hsplit : s.next^[d] cur = s.next^[d-(j+1)] cur := by
          conv_lhs => rw [show d = (d-(j+1)) + (j+1) by omega]
          rw [Function.iterate_add_apply, hc]
        exact hmin (d-(j+1)) (by omega) (hsplit ▸ hd)
  have key : ∀ j, j ≤ d - 1 →
      (moveAfter s cur r).next^[j] (s.next cur) = s.next^[j+1] cur := by
    intro j
    induction j with
    | zero =>
      intro _
      simp
    | succ j ihj =>
      intro hj
      have ih := ihj (by omega)
      rw [Function.iterate_succ_apply', ih]
      conv_rhs => rw [Function.iterate_succ_apply']
      obtain ⟨h1, h2, h3⟩ := hmid (j+1) (by omega) (by omega)
      rw [moveAfter_next_apply hwf hcr, if_neg h1, if_neg h2, if_neg h3]
  have hfin := key (d-1) (le_refl _)
  rw [hfin, show d - 1 + 1 = d by omega, hd]

end MoveCycle

/-! ## The splice loop: invariant, termination and postcondition -/

section ConnectLoop

variable {n : ℕ}

theorem connectGo_succ (l r : Fin n) (fuel : ℕ) (cur : Fin n) (s : State n) :
    connectGo l r (fuel+1) cur s =
      if s.next cur = r then some s
      else if s.next cur = l then some (moveAfter s cur r)
      else connectGo l r fuel (s.next cur) (moveAfter s cur r) := rfl

/-- Invariant-carrying specification of the splice loop.  `F` is the
union of the two original rings.  The measure `m` bounds the remaining
iterations: when `cur` already sits on `r`'s ring, it bounds the
forward distance from `cur` to `r`; otherwise it bounds the remnant
ring's size plus `n`. -/
theorem connectGo_spec (l r : Fin n) (F : Set (Fin n)) :
    ∀ (m : ℕ) (s : State n) (cur : Fin n),
      wfState s → cur ≠ r → Reach s r l →
      cycleSet s r ∪ cycleSet s cur = F →
      (Reach s r cur → cycleSet s r = F) →
      ((Reach s r cur ∧ ∃ d, d ≤ m ∧ s.next^[d] cur = r) ∨
        (¬ Reach s r cur ∧ (cycleSet s cur).ncard + n ≤ m)) →
      ∃ s2, connectGo l r (m+1) cur s = some s2 ∧ wfState s2 ∧ cycleSet s2 r = F := by
  intro m
  induction m with
  | zero =>
    intro s cur hwf hcr hrl hU hcol hM
    exfalso
    rcases hM with ⟨-, d, hdm, hpath⟩ | ⟨-, hcard⟩
    · obtain rfl : d = 0 := by omega
      exact hcr hpath
    · have := cur.isLt
      omega
  | succ m ih =>
    intro s cur hwf hcr hrl hU hcol hM
    have hrnc : r ≠ cur := fun hh => hcr hh.symm
    rw [connectGo_succ]
    by_cases hbr : s.next cur = r
    · -- `if (tmp == &r) break;`
      rw [if_pos hbr]
      have hrc : Reach s r cur := reach_symm hwf ⟨1, by rw [Function.iterate_one, hbr]⟩
      exact ⟨s, rfl, hwf, hcol hrc⟩
    · rw [if_neg hbr]
      have hwf2 : wfState (moveAfter s cur r) := wfState_moveAfter hwf hcr
      have hrcur2 : Reach (moveAfter s cur r) r cur := reach_moveAfter_r_cur hwf hcr
      have hA2 : cycleSet (moveAfter s cur r) r = cycleSet s r ∪ {cur} :=
        cycleSet_moveAfter_r hwf hcr
      by_cases hphase : Reach s r cur
      · -- phase 2: cur is on r's ring; forward distance to r decreases
        have hF : cycleSet s r = F := hcol hphase
        have hA : cycleSet (moveAfter s cur r) r = F := by
          rw [hA2, hF]
          apply Set.union_eq_self_of_subset_right
          intro x hx
          have hx2 : x = cur := hx
          rw [hx2]
          exact hF ▸ hphase
        have htc : s.next cur ≠ cur := by
          intro h
          have h3 : r ∈ cycleSet s cur := reach_symm hwf hphase
          rw [cycleSet_singleton h] at h3
          exact hcr h3.symm
        have hrt : Reach s r (s.next cur) := reach_trans hphase (reach_step cur)
        have hrt2 : Reach (moveAfter s cur r) r (s.next cur) :=
          (reach_moveAfter_iff hwf hcr hrnc htc).mpr hrt
        by_cases hl : s.next cur = l
        · rw [if_pos hl]
          exact ⟨_, rfl, hwf2, hA⟩
        · rw [if_neg hl]
          rcases hM with ⟨-, d, hdm, hpath⟩ | ⟨hnrc, -⟩
          · obtain ⟨d0, hd0n, hpath0, hmin0⟩ := exists_min_dist hwf ⟨d, hpath⟩
            have hd0d : d0 ≤ d := by
              by_contra hgt
              push_neg at hgt
              exact hmin0 d hgt hpath
            have hrl2 : Reach (moveAfter s cur r) r l := by
              by_cases hlc : l = cur
              · rw [hlc]
                exact hrcur2
              · exact (reach_moveAfter_iff hwf hcr hrnc hlc).mpr hrl
            have hTmpEq : cycleSet (moveAfter s cur r) (s.next cur) =
                cycleSet (moveAfter s cur r) r :=
              (cycleSet_eq_of_reach hwf2 hrt2).symm
            have hU2 : cycleSet (moveAfter s cur r) r ∪
                cycleSet (moveAfter s cur r) (s.next cur) = F := by
              rw [hTmpEq, hA, Set.union_self]
            have hM2 : (Reach (moveAfter s cur r) r (s.next cur) ∧
                ∃ d2, d2 ≤ m ∧ (moveAfter s cur r).next^[d2] (s.next cur) = r) ∨
                (¬ Reach (moveAfter s cur r) r (s.next cur) ∧
                  (cycleSet (moveAfter s cur r) (s.next cur)).ncard + n ≤ m) := by
              refine Or.inl ⟨hrt2, d0 - 1, by omega, ?_⟩
              exact moveAfter_dist hwf hcr hbr hpath0 hmin0
            exact ih (moveAfter s cur r) (s.next cur) hwf2 hbr hrl2 hU2 (fun _ => hA) hM2
          · exact absurd hphase hnrc
      · -- phase 1: cur's ring does not contain r yet
        have hlc : l ≠ cur := by
          intro h
          exact hphase (h ▸ hrl)
        have hrl2 : Reach (moveAfter s cur r) r l :=
          (reach_moveAfter_iff hwf hcr hrnc hlc).mpr hrl
        rcases hM with ⟨hrc, -⟩ | ⟨-, hcard⟩
        · exact absurd hrc hphase
        by_cases hsing : s.next cur = cur
        · -- the remnant was a singleton: cur joins r's ring, switch phases
          have htl : s.next cur ≠ l := by
            rw [hsing]
            exact fun h => hlc h.symm
          rw [if_neg htl, hsing]
          have hsingset : cycleSet s cur = {cur} := cycleSet_singleton hsing
          have hAF : cycleSet (moveAfter s cur r) r = F := by
            rw [hA2, ← hU, hsingset]
          have hcc2 : cycleSet (moveAfter s cur r) cur =
              cycleSet (moveAfter s cur r) r :=
            (cycleSet_eq_of_reach hwf2 hrcur2).symm
          have hU2 : cycleSet (moveAfter s cur r) r ∪
              cycleSet (moveAfter s cur r) cur = F := by
            rw [hcc2, hAF, Set.union_self]
          have hcr2 : Reach (moveAfter s cur r) cur r :=
            (reach_moveAfter_cur_iff hwf hcr).mpr (Or.inr (reach_refl r))
          obtain ⟨d0, hd0n, hpath0, -⟩ := exists_min_dist hwf2 hcr2
          have hnc : (cycleSet s cur).ncard = 1 := by
            rw [hsingset]
            exact Set.ncard_singleton cur
          have hM2 : (Reach (moveAfter s cur r) r cur ∧
              ∃ d2, d2 ≤ m ∧ (moveAfter s cur r).next^[d2] cur = r) ∨
              (¬ Reach (moveAfter s cur r) r cur ∧
                (cycleSet (moveAfter s cur r) cur).ncard + n ≤ m) :=
            Or.inl ⟨hrcur2, d0, by omega, hpath0⟩
          exact ih (moveAfter s cur r) cur hwf2 hcr hrl2 hU2 (fun _ => hAF) hM2
        · -- the remnant keeps at least one pin: its size decreases
          have htc : s.next cur ≠ cur := hsing
          have htl : s.next cur ≠ l := by
            intro h
            apply hphase
            have h1 : Reach s cur l := h ▸ reach_step cur
            exact reach_trans hrl (reach_symm hwf h1)
          rw [if_neg htl]
          have hnrt : ¬ Reach s r (s.next cur) := by
            intro h
            apply hphase
            exact reach_trans h (reach_symm hwf (reach_step cur))
          have hrem : cycleSet (moveAfter s cur r) (s.next cur) =
              cycleSet s cur \ {cur} :=
            cycleSet_moveAfter_remnant hwf hcr htc hnrt (reach_step cur)
          have hU2 : cycleSet (moveAfter s cur r) r ∪
              cycleSet (moveAfter s cur r) (s.next cur) = F := by
            rw [hA2, hrem, ← hU]
            ext x
            simp only [Set.mem_union, Set.mem_diff, Set.mem_singleton_iff]
            constructor
            · rintro ((h | h) | ⟨h, -⟩)
              · exact Or.inl h
              · subst h
                exact Or.inr (mem_cycleSet_self x)
              · exact Or.inr h
            · rintro (h | h)
              · exact Or.inl (Or.inl h)
              · by_cases hx : x = cur
                · exact Or.inl (Or.inr hx)
                · exact Or.inr ⟨h, hx⟩
          have hnrt2 : ¬ Reach (moveAfter s cur r) r (s.next cur) :=
            fun h => hnrt ((reach_moveAfter_iff hwf hcr hrnc htc).mp h)
          have hcol2 : Reach (moveAfter s cur r) r (s.next cur) →
              cycleSet (moveAfter s cur r) r = F :=
            fun h => absurd h hnrt2
          have hpos : 0 < (cycleSet s cur).ncard :=
            (Set.ncard_pos (Set.toFinite _)).mpr ⟨cur, mem_cycleSet_self cur⟩
          have hdec : (cycleSet (moveAfter s cur r) (s.next cur)).ncard =
              (cycleSet s cur).ncard - 1 := by
            rw [hrem]
            exact Set.ncard_diff_singleton_of_mem (mem_cycleSet_self cur) (Set.toFinite _)
          have hM2 : (Reach (moveAfter s cur r) r (s.next cur) ∧
              ∃ d2, d2 ≤ m ∧ (moveAfter s cur r).next^[d2] (s.next cur) = r) ∨
              (¬ Reach (moveAfter s cur r) r (s.next cur) ∧
                (cycleSet (moveAfter s cur r) (s.next cur)).ncard + n ≤ m) := by
            refine Or.inr ⟨hnrt2, ?_⟩
            omega
          exact ih (moveAfter s cur r) (s.next cur) hwf2 hbr hrl2 hU2 hcol2 hM2

theorem union_singleton_diff {α : Type} (A B : Set α) (c : α) (hc : c ∈ B) :
    (A ∪ {c}) ∪ (B \ {c}) = B ∪ A := by
  ext x
  simp only [Set.mem_union, Set.mem_diff, Set.mem_singleton_iff]
  constructor
  · rintro ((h | h) | ⟨h, -⟩)
    · exact Or.inr h
    · subst h
      exact Or.inl hc
    · exact Or.inl h
  · rintro (h | h)
    · by_cases hx : x = c
      · exact Or.inl (Or.inr hx)
      · exact Or.inr ⟨h, hx⟩
    · exact Or.inl (Or.inl h)

/-- Any single ring has at most `n` pins. -/
theorem cycleSet_ncard_le {n : ℕ} (s : State n) (p : Fin n) :
    (cycleSet s p).ncard ≤ n := by
  have h1 := Set.ncard_le_ncard (Set.subset_univ (cycleSet s p)) Set.finite_univ
  rwa [Set.ncard_univ, Nat.card_eq_fintype_card, Fintype.card_fin] at h1

/-- Master specification of `connect(l, r)`: on a well-formed state
with `l ≠ r` it returns (within fuel `2n+1`), the result is
well-formed, and the ring of `r` afterwards is exactly the union of
the original rings of `l` and of `r`. -/
theorem connect_spec {n : ℕ} (s : State n) (l r : Fin n)
    (hwf : wfState s) (hlr : l ≠ r) :
    ∃ s2, connect s l r = some s2 ∧ wfState s2 ∧
      cycleSet s2 r = cycleSet s l ∪ cycleSet s r := by
  have hrnl : r ≠ l := fun h => hlr h.symm
  unfold connect
  rw [if_neg hlr, connectGo_succ]
  by_cases hbr : s.next l = r
  · -- already adjacent: the loop exits before any write
    rw [if_pos hbr]
    refine ⟨s, rfl, hwf, ?_⟩
    have hlr2 : Reach s l r := ⟨1, by rw [Function.iterate_one, hbr]⟩
    rw [cycleSet_eq_of_reach hwf hlr2, Set.union_self]
  · rw [if_neg hbr]
    have hwf2 : wfState (moveAfter s l r) := wfState_moveAfter hwf hlr
    have hrl2 : Reach (moveAfter s l r) r l := reach_moveAfter_r_cur hwf hlr
    have hA2 : cycleSet (moveAfter s l r) r = cycleSet s r ∪ {l} :=
      cycleSet_moveAfter_r hwf hlr
    by_cases hl : s.next l = l
    · -- l was a singleton ring; one move finishes the splice
      rw [if_pos hl]
      refine ⟨_, rfl, hwf2, ?_⟩
      rw [hA2, cycleSet_singleton hl]
      exact Set.union_comm _ _
    · rw [if_neg hl]
      have hn1 : 1 ≤ n := by
        have := l.isLt
        omega
      by_cases hphase : Reach s r l
      · -- l was already on r's ring
        have hFr : cycleSet s l ∪ cycleSet s r = cycleSet s r := by
          rw [cycleSet_eq_of_reach hwf (reach_symm hwf hphase), Set.union_self]
        have hAF : cycleSet (moveAfter s l r) r = cycleSet s l ∪ cycleSet s r := by
          rw [hA2, hFr]
          apply Set.union_eq_self_of_subset_right
          intro x hx
          have hx2 : x = l := hx
          rw [hx2]
          exact hphase
        have hrt : Reach s r (s.next l) := reach_trans hphase (reach_step l)
        have hrt2 : Reach (moveAfter s l r) r (s.next l) :=
          (reach_moveAfter_iff hwf hlr hrnl hl).mpr hrt
        have hU2 : cycleSet (moveAfter s l r) r ∪
            cycleSet (moveAfter s l r) (s.next l) = cycleSet s l ∪ cycleSet s r := by
          rw [(cycleSet_eq_of_reach hwf2 hrt2).symm, Set.union_self]
          exact hAF
        obtain ⟨d0, hd0n, hpath0, hmin0⟩ := exists_min_dist hwf (reach_symm hwf hphase)
        have hdist := moveAfter_dist hwf hlr hbr hpath0 hmin0
        obtain ⟨s2, heq, h1, h2⟩ := connectGo_spec l r (cycleSet s l ∪ cycleSet s r)
          (2*n-1) (moveAfter s l r) (s.next l) hwf2 hbr hrl2 hU2 (fun _ => hAF)
          (Or.inl ⟨hrt2, d0 - 1, by omega, hdist⟩)
        rw [show 2*n = (2*n-1)+1 by omega]
        exact ⟨s2, heq, h1, h2⟩
      · -- l's ring was disjoint from r's
        have hnrt : ¬ Reach s r (s.next l) := by
          intro h
          exact hphase (reach_trans h (reach_symm hwf (reach_step l)))
        have hrem : cycleSet (moveAfter s l r) (s.next l) = cycleSet s l \ {l} :=
          cycleSet_moveAfter_remnant hwf hlr hl hnrt (reach_step l)
        have hU2 : cycleSet (moveAfter s l r) r ∪
            cycleSet (moveAfter s l r) (s.next l) = cycleSet s l ∪ cycleSet s r := by
          rw [hA2, hrem]
          exact union_singleton_diff _ _ _ (mem_cycleSet_self l)
        have hnrt2 : ¬ Reach (moveAfter s l r) r (s.next l) :=
          fun h => hnrt ((reach_moveAfter_iff hwf hlr hrnl hl).mp h)
        have hAF : Reach (moveAfter s l r) r (s.next l) →
            cycleSet (moveAfter s l r) r = cycleSet s l ∪ cycleSet s r :=
          fun h => absurd h hnrt2
        have hpos : 0 < (cycleSet s l).ncard :=
          (Set.ncard_pos (Set.toFinite _)).mpr ⟨l, mem_cycleSet_self l⟩
        have hle : (cycleSet s l).ncard ≤ n := cycleSet_ncard_le s l
        have hdec : (cycleSet (moveAfter s l r) (s.next l)).ncard =
            (cycleSet s l).ncard - 1 := by
          rw [hrem]
          exact Set.ncard_diff_singleton_of_mem (mem_cycleSet_self l) (Set.toFinite _)
        obtain ⟨s2, heq, h1, h2⟩ := connectGo_spec l r (cycleSet s l ∪ cycleSet s r)
          (2*n-1) (moveAfter s l r) (s.next l) hwf2 hbr hrl2 hU2 hAF
          (Or.inr ⟨hnrt2, by omega⟩)
        rw [show 2*n = (2*n-1)+1 by omega]
        exact ⟨s2, heq, h1, h2⟩

/-- Giving the splice loop more fuel cannot change a result it already
reaches. -/
theorem connectGo_mono {n : ℕ} (l r : Fin n) :
    ∀ fuel cur s s2, connectGo l r fuel cur s = some s2 →
      connectGo l r (fuel+1) cur s = some s2 := by
  intro fuel
  induction fuel with
  | zero =>
    intro cur s s2 h
    exact absurd h (by rw [show connectGo l r 0 cur s = none from rfl]; exact Option.noConfusion)
  | succ fuel ih =>
    intro cur s s2 h
    rw [connectGo_succ] at h
    rw [connectGo_succ]
    by_cases hbr : s.next cur = r
    · rwa [if_pos hbr] at h ⊢
    · rw [if_neg hbr] at h ⊢
      by_cases hl : s.next cur = l
      · rwa [if_pos hl] at h ⊢
      · rw [if_neg hl] at h ⊢
        exact ih _ _ _ h

theorem connectGo_mono_le {n : ℕ} (l r : Fin n) {fuel fuel2 : ℕ} (hle : fuel ≤ fuel2) :
    ∀ cur s s2, connectGo l r fuel cur s = some s2 →
      connectGo l r fuel2 cur s = some s2 := by
  induction fuel2 with
  | zero =>
    intro cur s s2 h
    obtain rfl : fuel = 0 := by omega
    exact h
  | succ fuel2 ih =>
    intro cur s s2 h
    by_cases hf : fuel = fuel2 + 1
    · rwa [hf] at h
    · exact connectGo_mono l r fuel2 cur s s2 (ih (by omega) cur s s2 h)

end ConnectLoop

/-! ## Signal-ring chain toolkit -/

section SigRingChain

variable {m : ℕ} {d d2 : SigRing m}

theorem isChain_congr :
    ∀ L, IsChain d L → (∀ a ∈ L.dropLast, d2.nxt a = d.nxt a) →
      (∀ a ∈ L.drop 1, d2.prv a = d.prv a) → IsChain d2 L
  | [], _, _, _ => trivial
  | [_], _, _, _ => trivial
  | a :: b :: rest, h, hn, hp => by
      obtain ⟨⟨h1, h2⟩, h3⟩ := h
      refine ⟨⟨?_, ?_⟩, ?_⟩
      · rw [hn a (by simp)]
        exact h1
      · rw [hp b (by simp)]
        exact h2
      · exact isChain_congr (b :: rest) h3
          (fun x hx => hn x (by
            simp only [List.dropLast_cons₂, List.mem_cons] at hx ⊢
            exact Or.inr hx))
          (fun x hx => hp x (by
            simp only [List.drop_one, List.tail_cons] at hx ⊢
            exact List.mem_cons_of_mem b hx))

theorem isChain_tail {a : Fin m} : ∀ {L}, IsChain d (a :: L) → IsChain d L
  | [], _ => trivial
  | _ :: _, h => h.2

theorem isChain_cons (a : Fin m) :
    ∀ L (hne : L ≠ []), d.nxt a = L.head hne → d.prv (L.head hne) = a →
      IsChain d L → IsChain d (a :: L)
  | [], hne, _, _, _ => absurd rfl hne
  | [x], _, h1, h2, _ => ⟨⟨h1, h2⟩, trivial⟩
  | x :: y :: rest, _, h1, h2, hc => ⟨⟨h1, h2⟩, hc⟩

theorem isChain_snoc (b : Fin m) :
    ∀ L (hne : L ≠ []), IsChain d L → d.nxt (L.getLast hne) = b →
      d.prv b = L.getLast hne → IsChain d (L ++ [b])
  | [], hne, _, _, _ => absurd rfl hne
  | [x], _, _, h1, h2 => ⟨⟨h1, h2⟩, trivial⟩
  | x :: y :: rest, _, hc, h1, h2 => by
      rw [List.getLast_cons (List.cons_ne_nil y rest)] at h1 h2
      exact ⟨hc.1, isChain_snoc b (y :: rest) (List.cons_ne_nil y rest) hc.2 h1 h2⟩

theorem isChain_append_split :
    ∀ l1 l2 (h1 : l1 ≠ []) (h2 : l2 ≠ []), IsChain d (l1 ++ l2) →
      IsChain d l1 ∧ IsChain d l2 ∧
        d.nxt (l1.getLast h1) = l2.head h2 ∧ d.prv (l2.head h2) = l1.getLast h1
  | [], _, h1, _, _ => absurd rfl h1
  | [x], l2, _, h2, hc => by
      match l2, h2 with
      | y :: t2, _ =>
          exact ⟨trivial, hc.2, hc.1.1, hc.1.2⟩
  | x :: y :: rest, l2, _, h2, hc => by
      obtain ⟨hcs, hl2, hj1, hj2⟩ :=
        isChain_append_split (y :: rest) l2 (List.cons_ne_nil y rest) h2 hc.2
      refine ⟨⟨hc.1, hcs⟩, hl2, ?_, ?_⟩
      · rw [List.getLast_cons (List.cons_ne_nil y rest)]
        exact hj1
      · rw [List.getLast_cons (List.cons_ne_nil y rest)]
        exact hj2

theorem isChain_append_join :
    ∀ l1 l2 (h1 : l1 ≠ []) (h2 : l2 ≠ []), IsChain d l1 → IsChain d l2 →
      d.nxt (l1.getLast h1) = l2.head h2 → d.prv (l2.head h2) = l1.getLast h1 →
      IsChain d (l1 ++ l2)
  | [], _, h1, _, _, _, _, _ => absurd rfl h1
  | [x], l2, _, h2, _, hl2, hj1, hj2 => by
      match l2, h2 with
      | y :: t2, _ => exact ⟨⟨hj1, hj2⟩, hl2⟩
  | x :: y :: rest, l2, _, h2, hc, hl2, hj1, hj2 => by
      rw [List.getLast_cons (List.cons_ne_nil y rest)] at hj1 hj2
      exact ⟨hc.1, isChain_append_join (y :: rest) l2 (List.cons_ne_nil y rest) h2
        hc.2 hl2 hj1 hj2⟩

/-- The adjacent-pair facts of a chain, by position. -/
theorem isChain_get :
    ∀ L, IsChain d L → ∀ i (h : i + 1 < L.length),
      d.nxt (L.get ⟨i, by omega⟩) = L.get ⟨i+1, h⟩ ∧
        d.prv (L.get ⟨i+1, h⟩) = L.get ⟨i, by omega⟩
  | [], _, i, h => by simp at h
  | [x], _, i, h => by simp at h
  | a :: b :: rest, hc, 0, h => ⟨hc.1.1, hc.1.2⟩
  | a :: b :: rest, hc, i+1, h => by
      have := isChain_get (b :: rest) hc.2 i (by simpa using h)
      simpa using this

/-- Walking `i` steps of `sig_next_` from the head of a chain lands on
position `i`. -/
theorem isChain_iterate :
    ∀ L (hne : L ≠ []), IsChain d L → ∀ i (h : i < L.length),
      d.nxt^[i] (L.head hne) = L.get ⟨i, h⟩ := by
  intro L hne hc i
  induction i with
  | zero =>
      intro h
      rw [Function.iterate_zero_apply]
      match L, hne with
      | x :: xs, _ => rfl
  | succ i ih =>
      intro h
      rw [Function.iterate_succ_apply', ih (by omega)]
      exact (isChain_get L hc i h).1

end SigRingChain

/-! ## Signal-ring invariant preservation -/

section SigRingInv

variable {m : ℕ}

theorem ringInv_empty : RingInv (emptySigRing m) :=
  ⟨[], List.nodup_nil, fun x => by simp [emptySigRing], rfl⟩

/-- `add_signal` on an empty design. -/
theorem addSignal_none {d : SigRing m} {net : Fin m}
    (hreg : ¬ d.reg net = true) (hh : d.head = none) :
    addSignal d net = some
      { head := some net,
        nxt := Function.update d.nxt net net,
        prv := Function.update d.prv net net,
        reg := Function.update d.reg net true } := by
  rw [addSignal, if_neg hreg, hh]

/-- `add_signal` on a nonempty design: the new signal is inserted right
after the old head and becomes the new head. -/
theorem addSignal_some {d : SigRing m} {net h : Fin m}
    (hreg : ¬ d.reg net = true) (hh : d.head = some h) (hbnet : d.nxt h ≠ net) :
    addSignal d net = some
      { head := some net,
        nxt := fun x => if x = h then net else if x = net then d.nxt h else d.nxt x,
        prv := fun x => if x = d.nxt h then net else if x = net then h else d.prv x,
        reg := Function.update d.reg net true } := by
  rw [addSignal, if_neg hreg, hh]
  refine congrArg some ?_
  dsimp only
  have h1 : Function.update d.nxt net (d.nxt h) net = d.nxt h :=
    Function.update_same net (d.nxt h) d.nxt
  have h2 : Function.update (Function.update d.prv net h)
      (Function.update d.nxt net (d.nxt h) net) net net = h := by
    rw [h1, Function.update_apply,
      if_neg (fun hc : (net : Fin m) = d.nxt h => hbnet hc.symm)]
    exact Function.update_same net h d.prv
  congr 1
  · rw [h2]
    funext x
    rw [Function.update_apply, Function.update_apply]
  · rw [h1]
    funext x
    rw [Function.update_apply, Function.update_apply]

/-- `del_signal` when the signal is the only ring member. -/
theorem delSignal_single {d : SigRing m} {net : Fin m}
    (hreg : d.reg net = true) (hh : d.head = some net) (hp : d.prv net = net) :
    delSignal d net = some
      { d with head := none, reg := Function.update d.reg net false } := by
  rw [delSignal, if_pos hreg]
  dsimp only
  have hs1 : (if d.head = some net then some (d.prv net) else d.head) = some net := by
    rw [hh, if_pos rfl, hp]
  rw [hs1, if_pos rfl]

/-- `del_signal` in the remaining cases: the neighbors are bridged and
the head moves to `prv net` only when `net` was the head. -/
theorem delSignal_other {d : SigRing m} {net : Fin m}
    (hreg : d.reg net = true)
    (hs : (if d.head = some net then some (d.prv net) else d.head) ≠ some net) :
    delSignal d net = some
      { head := if d.head = some net then some (d.prv net) else d.head,
        nxt := Function.update d.nxt (d.prv net) (d.nxt net),
        prv := Function.update d.prv (d.nxt net) (d.prv net),
        reg := Function.update d.reg net false } := by
  rw [delSignal, if_pos hreg]
  dsimp only
  rw [if_neg hs]
  have h1 : Function.update d.nxt (d.prv net) (d.nxt net) net = d.nxt net := by
    rw [Function.update_apply]
    split_ifs <;> rfl
  rw [h1]


/-- `add_signal` preserves the signal-ring invariant. -/
theorem ringInv_addSignal {d d2 : SigRing m} {net : Fin m}
    (hinv : RingInv d) (heq : addSignal d net = some d2) : RingInv d2 := by
  obtain ⟨L, hnd, hreg, hring⟩ := hinv
  have hnreg : ¬ d.reg net = true := by
    intro hr
    rw [addSignal, if_pos hr] at heq
    exact Option.noConfusion heq
  have hnetL : net ∉ L := fun hmem => hnreg ((hreg net).mpr hmem)
  rcases hh : d.head with - | h
  · -- the ring was empty
    have hLnil : L = [] := by
      cases L with
      | nil => rfl
      | cons x xs =>
          have hx := hring.1
          rw [hh] at hx
          exact Option.noConfusion hx
    rw [addSignal_none hnreg hh] at heq
    obtain rfl : _ = d2 := Option.some_injective _ heq
    refine ⟨[net], List.nodup_singleton net, ?_, rfl, trivial, ?_, ?_⟩
    · intro x
      by_cases hx : x = net
      · subst hx
        simp [Function.update_same]
      · show Function.update d.reg net true x = true ↔ x ∈ [net]
        rw [Function.update_apply, if_neg hx]
        simp only [List.mem_singleton, hx, iff_false]
        intro hxr
        rw [hreg x, hLnil] at hxr
        exact absurd hxr (List.not_mem_nil x)
    · show Function.update d.nxt net net net = net
      exact Function.update_same net net d.nxt
    · show Function.update d.prv net net net = net
      exact Function.update_same net net d.prv
  · -- insert after the head
    obtain ⟨t, rfl⟩ : ∃ t, L = h :: t := by
      cases L with
      | nil =>
          have hx : d.head = none := hring
          rw [hh] at hx
          exact Option.noConfusion hx
      | cons x xs =>
          have hx := hring.1
          rw [hh] at hx
          exact ⟨xs, by rw [Option.some_injective _ hx]⟩
    have hhmem : h ∈ h :: t := List.mem_cons_self h t
    have hnh : net ≠ h := fun hc => hnetL (hc ▸ hhmem)
    have hht : h ∉ t := (List.nodup_cons.mp hnd).1
    have hndt : t.Nodup := (List.nodup_cons.mp hnd).2
    have hchain : IsChain d (h :: t) := hring.2.1
    have hsucc : d.nxt h ∈ h :: t := by
      cases t with
      | nil =>
          have hw := hring.2.2.1
          simp only [List.getLast_singleton] at hw
          rw [hw]
          exact List.mem_cons_self h []
      | cons t0 ts =>
          rw [hchain.1.1]
          exact List.mem_cons_of_mem h (List.mem_cons_self t0 ts)
    have hbnet : d.nxt h ≠ net := fun hc => hnetL (hc ▸ hsucc)
    rw [addSignal_some hnreg hh hbnet] at heq
    obtain rfl : _ = d2 := Option.some_injective _ heq
    have hperm : List.Perm (t ++ [h]) (h :: t) := List.perm_append_singleton h t
    have hmemth : ∀ x, x ∈ t ++ [h] ↔ x ∈ h :: t := fun x => hperm.mem_iff
    refine ⟨net :: (t ++ [h]), ?_, ?_, rfl, ?_, ?_, ?_⟩
    · refine List.nodup_cons.mpr ⟨?_, hperm.nodup_iff.mpr hnd⟩
      intro hmem
      exact hnetL ((hmemth net).mp hmem)
    · intro x
      by_cases hx : x = net
      · subst hx
        simp [Function.update_same]
      · show Function.update d.reg net true x = true ↔ x ∈ net :: (t ++ [h])
        rw [Function.update_apply, if_neg hx]
        rw [List.mem_cons]
        simp only [hx, false_or]
        rw [hmemth x]
        exact hreg x
    · -- the chain net :: (t ++ [h])
      cases t with
      | nil =>
          have hself : d.nxt h = h := by
            have hw := hring.2.2.1
            simpa using hw
          refine isChain_cons net [h] (List.cons_ne_nil h []) ?_ ?_ trivial
          · show (if (net : Fin m) = h then net else if net = net then d.nxt h else d.nxt net) = h
            rw [if_neg hnh, if_pos rfl, hself]
          · show (if h = d.nxt h then net else if h = net then h else d.prv h) = net
            rw [if_pos hself.symm]
      | cons t0 ts =>
          have ht0 : d.nxt h = t0 := hchain.1.1
          have hchaint : IsChain d (t0 :: ts) := hchain.2
          have hchaint2 : IsChain
              (SigRing.mk (some net)
                (fun x => if x = h then net else if x = net then d.nxt h else d.nxt x)
                (fun x => if x = d.nxt h then net else if x = net then h else d.prv x)
                (Function.update d.reg net true)) (t0 :: ts) := by
            refine isChain_congr (t0 :: ts) hchaint ?_ ?_
            · intro a ha
              have hat : a ∈ t0 :: ts := List.dropLast_subset _ ha
              have ha1 : a ≠ h := fun hc => hht (hc ▸ hat)
              have ha2 : a ≠ net := fun hc => hnetL (hc ▸ List.mem_cons_of_mem h hat)
              show (if a = h then net else if a = net then d.nxt h else d.nxt a) = d.nxt a
              rw [if_neg ha1, if_neg ha2]
            · intro a ha
              simp only [List.drop_one, List.tail_cons] at ha
              have ha1 : a ≠ d.nxt h := by
                rw [ht0]
                intro hc
                exact (List.nodup_cons.mp hndt).1 (hc ▸ ha)
              have ha2 : a ≠ net := fun hc =>
                hnetL (hc ▸ List.mem_cons_of_mem h (List.mem_cons_of_mem t0 ha))
              show (if a = d.nxt h then net else if a = net then h else d.prv a) = d.prv a
              rw [if_neg ha1, if_neg ha2]
          have hlastne : (t0 :: ts) ≠ [] := List.cons_ne_nil t0 ts
          have hglmem : (t0 :: ts).getLast hlastne ∈ t0 :: ts := List.getLast_mem hlastne
          have hgl1 : (t0 :: ts).getLast hlastne ≠ h := fun hc => hht (hc ▸ hglmem)
          have hgl2 : (t0 :: ts).getLast hlastne ≠ net := fun hc =>
            hnetL (hc ▸ List.mem_cons_of_mem h hglmem)
          have hsnoc : IsChain
              (SigRing.mk (some net)
                (fun x => if x = h then net else if x = net then d.nxt h else d.nxt x)
                (fun x => if x = d.nxt h then net else if x = net then h else d.prv x)
                (Function.update d.reg net true)) ((t0 :: ts) ++ [h]) := by
            refine isChain_snoc h (t0 :: ts) hlastne hchaint2 ?_ ?_
            · show (if (t0 :: ts).getLast hlastne = h then net
                else if (t0 :: ts).getLast hlastne = net then d.nxt h
                else d.nxt ((t0 :: ts).getLast hlastne)) = h
              rw [if_neg hgl1, if_neg hgl2]
              have hw := hring.2.2.1
              rw [List.getLast_cons hlastne] at hw
              exact hw
            · show (if h = d.nxt h then net else if h = net then h else d.prv h) =
                (t0 :: ts).getLast hlastne
              have hh1 : h ≠ d.nxt h := by
                rw [ht0]
                intro hc
                exact hht (hc ▸ List.mem_cons_self t0 ts)
              rw [if_neg hh1, if_neg (fun hc : h = net => hnh hc.symm)]
              have hw := hring.2.2.2
              rw [List.getLast_cons hlastne] at hw
              exact hw
          refine isChain_cons net ((t0 :: ts) ++ [h]) (by simp) ?_ ?_ hsnoc
          · show (if (net : Fin m) = h then net else if net = net then d.nxt h else d.nxt net) =
              ((t0 :: ts) ++ [h]).head (by simp)
            rw [if_neg hnh, if_pos rfl, ht0]
            rfl
          · show (if ((t0 :: ts) ++ [h]).head (by simp) = d.nxt h then net
              else if ((t0 :: ts) ++ [h]).head (by simp) = net then h
              else d.prv (((t0 :: ts) ++ [h]).head (by simp))) = net
            have hhead : ((t0 :: ts) ++ [h]).head (by simp) = t0 := rfl
            rw [hhead, if_pos ht0.symm]
    · -- wrap: the last element is the old head, whose successor is net
      have hglast : ((net :: (t ++ [h])).getLast (List.cons_ne_nil _ _)) = h := by
        rw [List.getLast_cons (by simp : t ++ [h] ≠ [])]
        exact List.getLast_append' t [h] (List.cons_ne_nil h [])
      rw [hglast]
      show (if h = h then net else if h = net then d.nxt h else d.nxt h) = net
      rw [if_pos rfl]
    · have hglast : ((net :: (t ++ [h])).getLast (List.cons_ne_nil _ _)) = h := by
        rw [List.getLast_cons (by simp : t ++ [h] ≠ [])]
        exact List.getLast_append' t [h] (List.cons_ne_nil h [])
      rw [hglast]
      show (if (net : Fin m) = d.nxt h then net else if net = net then h else d.prv net) = h
      rw [if_neg (fun hc : (net : Fin m) = d.nxt h => hbnet hc.symm), if_pos rfl]

/-- An element never occurs before its own slot in a duplicate-free
list: the last element is not in `dropLast`. -/
theorem getLast_not_mem_dropLast {α : Type} (l : List α) (hne : l ≠ []) (hnd : l.Nodup) :
    l.getLast hne ∉ l.dropLast := by
  intro hc
  have hsplit := List.dropLast_append_getLast hne
  rw [← hsplit] at hnd
  obtain ⟨-, -, hdisj⟩ := List.nodup_append.mp hnd
  exact hdisj hc (List.mem_singleton.mpr rfl)

/-- `del_signal` preserves the signal-ring invariant, in all three
cases: only ring member, head member, interior member. -/
theorem ringInv_delSignal {d d2 : SigRing m} {net : Fin m}
    (hinv : RingInv d) (heq : delSignal d net = some d2) : RingInv d2 := by
  obtain ⟨L, hnd, hreg, hring⟩ := hinv
  have hrnet : d.reg net = true := by
    by_cases hr : d.reg net = true
    · exact hr
    · rw [delSignal, if_neg hr] at heq
      exact Option.noConfusion heq
  have hmemL : net ∈ L := (hreg net).mp hrnet
  obtain ⟨h, t, rfl⟩ : ∃ h t, L = h :: t := by
    cases L with
    | nil => exact absurd hmemL (List.not_mem_nil net)
    | cons x xs => exact ⟨x, xs, rfl⟩
  have hhead : d.head = some h := hring.1
  have hchain : IsChain d (h :: t) := hring.2.1
  have hwrapn := hring.2.2.1
  have hwrapp := hring.2.2.2
  have hhnt : h ∉ t := (List.nodup_cons.mp hnd).1
  have hndt : t.Nodup := (List.nodup_cons.mp hnd).2
  by_cases hnh : net = h
  · subst hnh
    cases t with
    | nil =>
        -- net was the only ring member; the head is cleared
        have hp : d.prv net = net := hwrapp
        rw [delSignal_single hrnet hhead hp] at heq
        obtain rfl : _ = d2 := Option.some_injective _ heq
        refine ⟨[], List.nodup_nil, ?_, rfl⟩
        intro x
        show Function.update d.reg net false x = true ↔ x ∈ ([] : List (Fin m))
        simp only [List.not_mem_nil, iff_false]
        by_cases hx : x = net
        · subst hx
          simp [Function.update_same]
        · rw [Function.update_apply, if_neg hx]
          intro hxr
          have hx2 := (hreg x).mp hxr
          simp only [List.mem_singleton] at hx2
          exact hx hx2
    | cons t0 ts =>
        -- net was the head; the new head is its predecessor, the old last
        have htne : (t0 :: ts) ≠ [] := List.cons_ne_nil t0 ts
        have hglmem : (t0 :: ts).getLast htne ∈ t0 :: ts := List.getLast_mem htne
        have hprv : d.prv net = (t0 :: ts).getLast htne := by
          rw [hwrapp, List.getLast_cons htne]
        have hnxt : d.nxt net = t0 := hchain.1.1
        have hglnet : (t0 :: ts).getLast htne ≠ net := fun hc => hhnt (hc ▸ hglmem)
        have hs : (if d.head = some net then some (d.prv net) else d.head) ≠ some net := by
          rw [hhead, if_pos rfl, hprv]
          intro hc
          exact hglnet (Option.some_injective _ hc)
        rw [delSignal_other hrnet hs, hhead, if_pos rfl, hprv, hnxt] at heq
        obtain rfl : _ = d2 := Option.some_injective _ heq
        have hsplit : (t0 :: ts).dropLast ++ [(t0 :: ts).getLast htne] = t0 :: ts :=
          List.dropLast_append_getLast htne
        have hglndl : (t0 :: ts).getLast htne ∉ (t0 :: ts).dropLast :=
          getLast_not_mem_dropLast (t0 :: ts) htne hndt
        have hnddl : (t0 :: ts).dropLast.Nodup :=
          List.Nodup.sublist (List.dropLast_sublist _) hndt
        have hmm : ∀ y : Fin m,
            y ∈ (t0 :: ts) ↔ y ∈ (t0 :: ts).dropLast ++ [(t0 :: ts).getLast htne] :=
          fun y => by rw [hsplit]
        refine ⟨(t0 :: ts).getLast htne :: (t0 :: ts).dropLast,
          List.nodup_cons.mpr ⟨hglndl, hnddl⟩, ?_, rfl, ?_, ?_, ?_⟩
        · intro x
          show Function.update d.reg net false x = true ↔ _
          by_cases hx : x = net
          · subst hx
            simp only [Function.update_same, Bool.false_eq_true, false_iff]
            intro hc
            rcases List.mem_cons.mp hc with hc1 | hc1
            · exact hhnt (hc1.symm ▸ hglmem)
            · exact hhnt (List.dropLast_subset _ hc1)
          · rw [Function.update_apply, if_neg hx, hreg x, List.mem_cons, hmm x,
              List.mem_append, List.mem_singleton, List.mem_cons]
            simp only [hx, false_or]
            exact or_comm
        · -- the new chain: the old last, then dropLast of the companions
          cases ts with
          | nil => trivial
          | cons s0 ss =>
              have hdlne : (t0 :: s0 :: ss).dropLast ≠ [] := by
                show t0 :: (s0 :: ss).dropLast ≠ []
                exact List.cons_ne_nil _ _
              obtain ⟨hcdl, -, hj1, hj2⟩ :=
                isChain_append_split (t0 :: s0 :: ss).dropLast
                  [(t0 :: s0 :: ss).getLast htne] hdlne (List.cons_ne_nil _ []) (by
                    rw [hsplit]
                    exact isChain_tail hchain)
              have ht0dl : t0 ∉ (s0 :: ss).dropLast := by
                have h0 : (t0 :: (s0 :: ss).dropLast).Nodup := hnddl
                exact (List.nodup_cons.mp h0).1
              refine isChain_cons _ _ hdlne ?_ ?_ ?_
              · show Function.update d.nxt ((t0 :: s0 :: ss).getLast htne) t0 _ = _
                rw [Function.update_same]
                rfl
              · show Function.update d.prv t0 ((t0 :: s0 :: ss).getLast htne)
                  ((t0 :: s0 :: ss).dropLast.head hdlne) = _
                show Function.update d.prv t0 ((t0 :: s0 :: ss).getLast htne) t0 = _
                rw [Function.update_same]
              · refine isChain_congr _ hcdl ?_ ?_
                · intro a ha
                  have hat : a ∈ (t0 :: s0 :: ss).dropLast := List.dropLast_subset _ ha
                  show Function.update d.nxt ((t0 :: s0 :: ss).getLast htne) t0 a = d.nxt a
                  rw [Function.update_apply,
                    if_neg (fun hc : a = (t0 :: s0 :: ss).getLast htne => hglndl (hc ▸ hat))]
                · intro a ha
                  have hat : a ∈ (s0 :: ss).dropLast := ha
                  show Function.update d.prv t0 ((t0 :: s0 :: ss).getLast htne) a = d.prv a
                  rw [Function.update_apply, if_neg (fun hc : a = t0 => ht0dl (hc ▸ hat))]
        · -- wrap-around: the successor of the new last is the new head
          cases ts with
          | nil =>
              simp only [List.getLast_singleton, List.dropLast_single]
              show Function.update d.nxt t0 t0 t0 = t0
              exact Function.update_same t0 t0 d.nxt
          | cons s0 ss =>
              have hdlne : (t0 :: s0 :: ss).dropLast ≠ [] := by
                show t0 :: (s0 :: ss).dropLast ≠ []
                exact List.cons_ne_nil _ _
              obtain ⟨-, -, hj1, -⟩ :=
                isChain_append_split (t0 :: s0 :: ss).dropLast
                  [(t0 :: s0 :: ss).getLast htne] hdlne (List.cons_ne_nil _ []) (by
                    rw [hsplit]
                    exact isChain_tail hchain)
              rw [List.getLast_cons hdlne]
              show Function.update d.nxt ((t0 :: s0 :: ss).getLast htne) t0
                ((t0 :: s0 :: ss).dropLast.getLast hdlne) = _
              rw [Function.update_apply,
                if_neg (fun hc : (t0 :: s0 :: ss).dropLast.getLast hdlne =
                  (t0 :: s0 :: ss).getLast htne => hglndl (hc ▸ List.getLast_mem hdlne))]
              exact hj1
        · -- wrap-around: the predecessor of the new head is the new last
          cases ts with
          | nil =>
              simp only [List.getLast_singleton, List.dropLast_single]
              show Function.update d.prv t0 t0 t0 = t0
              exact Function.update_same t0 t0 d.prv
          | cons s0 ss =>
              have hdlne : (t0 :: s0 :: ss).dropLast ≠ [] := by
                show t0 :: (s0 :: ss).dropLast ≠ []
                exact List.cons_ne_nil _ _
              obtain ⟨-, -, -, hj2⟩ :=
                isChain_append_split (t0 :: s0 :: ss).dropLast
                  [(t0 :: s0 :: ss).getLast htne] hdlne (List.cons_ne_nil _ []) (by
                    rw [hsplit]
                    exact isChain_tail hchain)
              have hglts : (t0 :: s0 :: ss).getLast htne ∈ s0 :: ss := by
                rw [List.getLast_cons (List.cons_ne_nil s0 ss)]
                exact List.getLast_mem (List.cons_ne_nil s0 ss)
              have ht0ts : t0 ∉ s0 :: ss := (List.nodup_cons.mp hndt).1
              rw [List.getLast_cons hdlne]
              show Function.update d.prv t0 ((t0 :: s0 :: ss).getLast htne)
                ((t0 :: s0 :: ss).getLast htne) = _
              rw [Function.update_apply,
                if_neg (fun hc : (t0 :: s0 :: ss).getLast htne = t0 => ht0ts (hc ▸ hglts))]
              exact hj2
  · -- net is not the head: the neighbors are bridged around it
    have hnett : net ∈ t := by
      cases List.mem_cons.mp hmemL with
      | inl hc => exact absurd hc hnh
      | inr hc => exact hc
    obtain ⟨t1, t2, rfl⟩ := List.append_of_mem hnett
    have hs : (if d.head = some net then some (d.prv net) else d.head) ≠ some net := by
      rw [hhead]
      rw [if_neg (fun hc : some h = some net => hnh (Option.some_injective _ hc).symm)]
      intro hc
      exact hnh (Option.some_injective _ hc).symm
    rw [delSignal_other hrnet hs, hhead,
      if_neg (fun hc : some h = some net => hnh (Option.some_injective _ hc).symm)] at heq
    obtain rfl : _ = d2 := Option.some_injective _ heq
    obtain ⟨hc1, hc2, hjn1, hjn2⟩ :=
      isChain_append_split (h :: t1) (net :: t2) (List.cons_ne_nil h t1)
        (List.cons_ne_nil net t2)
        (show IsChain d ((h :: t1) ++ (net :: t2)) from hchain)
    have hprvnet : d.prv net = (h :: t1).getLast (List.cons_ne_nil h t1) := hjn2
    have hnxtlast : d.nxt ((h :: t1).getLast (List.cons_ne_nil h t1)) = net := hjn1
    have hndA : ((h :: t1) ++ (net :: t2)).Nodup := hnd
    have hnd1 : (h :: t1).Nodup := (List.nodup_append.mp hndA).1
    have hnd2 : (net :: t2).Nodup := (List.nodup_append.mp hndA).2.1
    have hdisj : List.Disjoint (h :: t1) (net :: t2) := (List.nodup_append.mp hndA).2.2
    have hglmem1 : (h :: t1).getLast (List.cons_ne_nil h t1) ∈ h :: t1 :=
      List.getLast_mem (List.cons_ne_nil h t1)
    have hnetmem1 : net ∉ h :: t1 := fun hc => hdisj hc (List.mem_cons_self net t2)
    cases t2 with
    | nil =>
        -- net was the final element: the new ring list is h :: t1
        have hglL : (h :: (t1 ++ [net])).getLast (List.cons_ne_nil _ _) = net :=
          List.getLast_append' (h :: t1) [net] (List.cons_ne_nil net [])
        have hnxtnet : d.nxt net = h := by
          have h0 := hwrapn
          rw [hglL] at h0
          exact h0
        have hprvh : d.prv h = net := by
          have h0 := hwrapp
          rw [hglL] at h0
          exact h0
        refine ⟨h :: t1, hnd1, ?_, rfl, ?_, ?_, ?_⟩
        · intro x
          show Function.update d.reg net false x = true ↔ x ∈ h :: t1
          by_cases hx : x = net
          · subst hx
            simp only [Function.update_same, Bool.false_eq_true, false_iff]
            exact hnetmem1
          · rw [Function.update_apply, if_neg hx, hreg x]
            simp [hx]
        · -- the chain h :: t1 survives the bridging writes
          refine isChain_congr _ hc1 ?_ ?_
          · intro a ha
            have hmemdl := getLast_not_mem_dropLast (h :: t1) (List.cons_ne_nil h t1) hnd1
            show Function.update d.nxt (d.prv net) (d.nxt net) a = d.nxt a
            rw [hprvnet, Function.update_apply,
              if_neg (fun hc : a = (h :: t1).getLast (List.cons_ne_nil h t1) =>
                hmemdl (hc ▸ ha))]
          · intro a ha
            have hat : a ∈ t1 := by simpa using ha
            show Function.update d.prv (d.nxt net) (d.prv net) a = d.prv a
            rw [hnxtnet, Function.update_apply,
              if_neg (fun hc : a = h => (List.nodup_cons.mp hnd1).1 (hc ▸ hat))]
        · show Function.update d.nxt (d.prv net) (d.nxt net) _ = h
          rw [hprvnet, hnxtnet, Function.update_same]
        · show Function.update d.prv (d.nxt net) (d.prv net) h = _
          rw [hnxtnet, hprvnet, Function.update_same]
    | cons q qs =>
        -- net was interior: the new ring list joins h :: t1 with q :: qs
        have hnxtnet : d.nxt net = q := hc2.1.1
        have hcq : IsChain d (q :: qs) := isChain_tail hc2
        have hqmem2 : q ∈ net :: q :: qs := List.mem_cons_of_mem net (List.mem_cons_self q qs)
        have hndqqs : (q :: qs).Nodup := (List.nodup_cons.mp hnd2).2
        have hqnqs : q ∉ qs := (List.nodup_cons.mp hndqqs).1
        have hglL : (h :: (t1 ++ net :: q :: qs)).getLast (List.cons_ne_nil _ _) =
            (q :: qs).getLast (List.cons_ne_nil q qs) := by
          have h1 := List.getLast_append' (h :: t1) (net :: q :: qs)
            (List.cons_ne_nil net (q :: qs))
          rw [List.getLast_cons (List.cons_ne_nil q qs)] at h1
          exact h1
        have hglqmem : (q :: qs).getLast (List.cons_ne_nil q qs) ∈ q :: qs :=
          List.getLast_mem (List.cons_ne_nil q qs)
        have hnxtgl : d.nxt ((q :: qs).getLast (List.cons_ne_nil q qs)) = h := by
          have h0 := hwrapn
          rw [hglL] at h0
          exact h0
        have hprvh : d.prv h = (q :: qs).getLast (List.cons_ne_nil q qs) := by
          have h0 := hwrapp
          rw [hglL] at h0
          exact h0
        have hsub : List.Sublist ((h :: t1) ++ (q :: qs)) ((h :: t1) ++ net :: q :: qs) :=
          List.Sublist.append_left (List.sublist_cons_self net (q :: qs)) (h :: t1)
        have hndnew : ((h :: t1) ++ (q :: qs)).Nodup := List.Nodup.sublist hsub hndA
        have hglnew : (h :: (t1 ++ q :: qs)).getLast (List.cons_ne_nil _ _) =
            (q :: qs).getLast (List.cons_ne_nil q qs) :=
          List.getLast_append' (h :: t1) (q :: qs) (List.cons_ne_nil q qs)
        have hhq : h ≠ q := fun hc => hdisj (List.mem_cons_self h t1) (hc ▸ hqmem2)
        refine ⟨(h :: t1) ++ (q :: qs), hndnew, ?_, rfl, ?_, ?_, ?_⟩
        · intro x
          show Function.update d.reg net false x = true ↔ _
          by_cases hx : x = net
          · subst hx
            simp only [Function.update_same, Bool.false_eq_true, false_iff]
            intro hc
            rcases List.mem_append.mp hc with hm | hm
            · exact hnetmem1 hm
            · exact (List.nodup_cons.mp hnd2).1 hm
          · rw [Function.update_apply, if_neg hx, hreg x]
            simp only [List.mem_cons, List.mem_append, hx, false_or, or_assoc]
        · -- the bridged chain
          have hch1 : IsChain
              (SigRing.mk (some h)
                (Function.update d.nxt (d.prv net) (d.nxt net))
                (Function.update d.prv (d.nxt net) (d.prv net))
                (Function.update d.reg net false)) (h :: t1) := by
            refine isChain_congr _ hc1 ?_ ?_
            · intro a ha
              have hmemdl := getLast_not_mem_dropLast (h :: t1) (List.cons_ne_nil h t1) hnd1
              show Function.update d.nxt (d.prv net) (d.nxt net) a = d.nxt a
              rw [hprvnet, Function.update_apply,
              if_neg (fun hc : a = (h :: t1).getLast (List.cons_ne_nil h t1) =>
                hmemdl (hc ▸ ha))]
            · intro a ha
              have hat : a ∈ t1 := by simpa using ha
              have haq : a ≠ q := fun hc =>
                hdisj (List.mem_cons_of_mem h hat) (hc ▸ hqmem2)
              show Function.update d.prv (d.nxt net) (d.prv net) a = d.prv a
              rw [hnxtnet, Function.update_apply, if_neg haq]
          have hch2 : IsChain
              (SigRing.mk (some h)
                (Function.update d.nxt (d.prv net) (d.nxt net))
                (Function.update d.prv (d.nxt net) (d.prv net))
                (Function.update d.reg net false)) (q :: qs) := by
            refine isChain_congr _ hcq ?_ ?_
            · intro a ha
              have hat : a ∈ q :: qs := List.dropLast_subset _ ha
              have hagl : a ≠ (h :: t1).getLast (List.cons_ne_nil h t1) := fun hc =>
                hdisj (hc ▸ hglmem1) (List.mem_cons_of_mem net hat)
              show Function.update d.nxt (d.prv net) (d.nxt net) a = d.nxt a
              rw [hprvnet, Function.update_apply, if_neg hagl]
            · intro a ha
              have hat : a ∈ qs := by simpa using ha
              have haq : a ≠ q := fun hc => hqnqs (hc ▸ hat)
              show Function.update d.prv (d.nxt net) (d.prv net) a = d.prv a
              rw [hnxtnet, Function.update_apply, if_neg haq]
          refine isChain_append_join (h :: t1) (q :: qs) (List.cons_ne_nil h t1)
            (List.cons_ne_nil q qs) hch1 hch2 ?_ ?_
          · show Function.update d.nxt (d.prv net) (d.nxt net) _ = _
            rw [hprvnet, Function.update_same, hnxtnet]
            rfl
          · show Function.update d.prv (d.nxt net) (d.prv net) q =
              (h :: t1).getLast (List.cons_ne_nil h t1)
            rw [hnxtnet, Function.update_same, hprvnet]
        · -- wrap: the successor of the old last is still the head
          simp only [List.append_eq]
          rw [hglnew]
          have hgl1 : (q :: qs).getLast (List.cons_ne_nil q qs) ≠
              (h :: t1).getLast (List.cons_ne_nil h t1) := fun hc =>
            hdisj (hc ▸ hglmem1) (List.mem_cons_of_mem net hglqmem)
          show Function.update d.nxt (d.prv net) (d.nxt net) _ = _
          rw [hprvnet, Function.update_apply, if_neg hgl1, hnxtgl]
        · -- wrap: the predecessor of the head is the old last
          simp only [List.append_eq]
          rw [hglnew]
          show Function.update d.prv (d.nxt net) (d.prv net) h = _
          rw [hnxtnet, Function.update_apply, if_neg hhq, hprvh]


/-- Once a call has asserted, every later call stays failed. -/
theorem foldl_stepSig_none :
    ∀ ops : List (SigOp m), List.foldl stepSig (none : Option (SigRing m)) ops = none
  | [] => rfl
  | op :: rest => by
      show List.foldl stepSig (stepSig none op) rest = none
      rw [show stepSig (none : Option (SigRing m)) op = none from rfl]
      exact foldl_stepSig_none rest

/-- The ring invariant is preserved along any fold of
`add_signal`/`del_signal` calls. -/
theorem ringInv_foldl :
    ∀ (ops : List (SigOp m)) (d0 : SigRing m), RingInv d0 →
      ∀ d, List.foldl stepSig (some d0) ops = some d → RingInv d
  | [], d0, hinv, d, heq => by
      obtain rfl : d0 = d := Option.some_injective _ heq
      exact hinv
  | op :: rest, d0, hinv, d, heq => by
      have heq2 : List.foldl stepSig (stepSig (some d0) op) rest = some d := heq
      cases hstep : stepSig (some d0) op with
      | none =>
          rw [hstep, foldl_stepSig_none rest] at heq2
          exact Option.noConfusion heq2
      | some d1 =>
          rw [hstep] at heq2
          refine ringInv_foldl rest d1 ?_ d heq2
          cases op with
          | add x => exact ringInv_addSignal hinv hstep
          | del x => exact ringInv_delSignal hinv hstep

/-- A successful run of `add_signal`/`del_signal` calls from a fresh
`Design` leaves a well-formed circular ring. -/
theorem ringInv_runSigOps {ops : List (SigOp m)} {d : SigRing m}
    (heq : runSigOps ops = some d) : RingInv d :=
  ringInv_foldl ops (emptySigRing m) ringInv_empty d heq

/-- Under the ring invariant, `signals_` is null exactly when no signal
is registered. -/
theorem ringInv_head_none {d : SigRing m} (hinv : RingInv d) :
    d.head = none ↔ ∀ x, d.reg x = false := by
  obtain ⟨L, hnd, hreg, hring⟩ := hinv
  cases L with
  | nil =>
      have hh : d.head = none := hring
      constructor
      · intro _ x
        have h1 : ¬ d.reg x = true := by
          rw [hreg x]
          exact List.not_mem_nil x
        exact Bool.eq_false_iff.mpr h1
      · intro _
        exact hh
  | cons x xs =>
      have hh : d.head = some x := hring.1
      constructor
      · intro h0
        rw [hh] at h0
        exact Option.noConfusion h0
      · intro hall
        have h1 := (hreg x).mpr (List.mem_cons_self x xs)
        rw [hall x] at h1
        exact Bool.noConfusion h1


end SigRingInv


/-! ## Parameter lookup: unfolding laws and the upward-search
characterization -/

section ParamLookup

/-- A hit on the joined key returns the binding at once. -/
theorem findParameter_hit {α : Type} {ps : List (List Char × α)} {root name : List Char}
    {e : α} (h : assocFind ps (root ++ '.' :: name) = some e) :
    findParameter ps root name = some e := by
  rw [findParameter.eq_def, h]

/-- A miss with a dot left strips the last dotted suffix and retries. -/
theorem findParameter_miss_step {α : Type} {ps : List (List Char × α)}
    {root name : List Char} {pos : {i : ℕ // i < root.length}}
    (h : assocFind ps (root ++ '.' :: name) = none) (h2 : rfindDot root = some pos) :
    findParameter ps root name = findParameter ps (root.take pos.1) name := by
  rw [findParameter.eq_def, h, h2]

/-- A miss with no dot left gives up. -/
theorem findParameter_miss_none {α : Type} {ps : List (List Char × α)}
    {root name : List Char}
    (h : assocFind ps (root ++ '.' :: name) = none) (h2 : rfindDot root = none) :
    findParameter ps root name = none := by
  rw [findParameter.eq_def, h, h2]

/-- `find_parameter` is exactly the upward search over the probe
sequence described by the spec. -/
theorem findParameter_eq_probe {α : Type} (ps : List (List Char × α))
    (root name : List Char) :
    findParameter ps root name = specParamSearch ps name (prefixChain root) := by
  rw [findParameter.eq_def, prefixChain.eq_def]
  simp only [specParamSearch]
  cases h1 : assocFind ps (root ++ '.' :: name) with
  | some e => rfl
  | none =>
      cases h2 : rfindDot root with
      | none => rfl
      | some pos => exact findParameter_eq_probe ps (root.take pos.1) name
termination_by root.length
decreasing_by
  have h := pos.2
  simp only [List.length_take]
  omega

end ParamLookup



/-! ## The claims -/

section Claims

/-- Claim C1: for two distinct pins `l` and `r` of a well-formed state,
`connect` succeeds, the ring invariant `next.prev = self` and
`prev.next = self` holds for every pin afterwards, every pin previously
reachable from `l` is reachable from `r`, and any pin of either
original ring reaches any other by forward traversal. -/
theorem claim_c1_connect_merge {n : ℕ} (s : State n) (l r : Fin n)
    (hwf : wfState s) (hlr : l ≠ r) :
    ∃ s2, connect s l r = some s2 ∧ wfState s2 ∧
      (∀ p, Reach s l p → Reach s2 r p) ∧
      (∀ p q, (Reach s l p ∨ Reach s r p) → (Reach s l q ∨ Reach s r q) →
        Reach s2 p q) := by
  obtain ⟨s2, hc, hwf2, hcyc⟩ := connect_spec s l r hwf hlr
  have hmem : ∀ p, (Reach s l p ∨ Reach s r p) → Reach s2 r p := by
    intro p hp
    have h1 : p ∈ cycleSet s l ∪ cycleSet s r := hp
    rw [← hcyc] at h1
    exact h1
  refine ⟨s2, hc, hwf2, fun p hp => hmem p (Or.inl hp), fun p q hp hq => ?_⟩
  exact reach_trans (reach_symm hwf2 (hmem p hp)) (hmem q hq)

/-- Claim C1 at a concrete input: merging the two singleton rings of a
fresh two-pin state. -/
theorem claim_c1_connect_merge_witness :
    ∃ s2, connect (freshState 2) 0 1 = some s2 ∧ wfState s2 ∧
      (∀ p, Reach (freshState 2) 0 p → Reach s2 1 p) ∧
      (∀ p q, (Reach (freshState 2) 0 p ∨ Reach (freshState 2) 1 p) →
        (Reach (freshState 2) 0 q ∨ Reach (freshState 2) 1 q) → Reach s2 p q) :=
  claim_c1_connect_merge (freshState 2) 0 1 (by decide) (by decide)

/-- Claim C2 counterexample: connecting two pins of the same four-pin
ring is not a no-op — pin 0's `next_` pointer changes — and
`connect(p, p)` trips the entry assertion instead of leaving the ring
untouched. -/
theorem claim_c2_same_ring_counterexample :
    (∃ s2, connect ringFour 0 2 = some s2 ∧ s2.next 0 ≠ ringFour.next 0) ∧
    connect ringFour 0 0 = none :=
  ⟨⟨_, rfl, by decide⟩, rfl⟩

/-- Claim C2 amended: on a shared ring `connect` of two distinct pins
still succeeds and preserves well-formedness and ring membership
(though not the pointer values bitwise), and `connect(p, p)` fails the
`assert(&l != &r)` entry assertion rather than acting as the identity. -/
theorem claim_c2_same_ring_amended {n : ℕ} (s : State n) (l r : Fin n)
    (hwf : wfState s) (hlr : l ≠ r) (hsame : Reach s l r) :
    (∃ s2, connect s l r = some s2 ∧ wfState s2 ∧
      (∀ p, Reach s2 r p ↔ Reach s l p)) ∧
    connect s l l = none := by
  constructor
  · obtain ⟨s2, hc, hwf2, hcyc⟩ := connect_spec s l r hwf hlr
    have hsr : cycleSet s r = cycleSet s l := (cycleSet_eq_of_reach hwf hsame).symm
    have hcyc2 : cycleSet s2 r = cycleSet s l := by
      rw [hcyc, hsr, Set.union_self]
    refine ⟨s2, hc, hwf2, fun p => ?_⟩
    constructor
    · intro hp
      have h1 : p ∈ cycleSet s2 r := hp
      rw [hcyc2] at h1
      exact h1
    · intro hp
      have h1 : p ∈ cycleSet s l := hp
      rw [← hcyc2] at h1
      exact h1
  · simp [connect]

/-- Claim C2 amended, at a concrete input: the two-pin ring. -/
theorem claim_c2_same_ring_witness :
    (∃ s2, connect ringTwo 0 1 = some s2 ∧ wfState s2 ∧
      (∀ p, Reach s2 1 p ↔ Reach ringTwo 0 p)) ∧
    connect ringTwo 0 0 = none :=
  claim_c2_same_ring_amended ringTwo 0 1 (by decide) (by decide) ⟨1, by decide⟩

set_option maxRecDepth 100000 in
/-- Claim C3: in the §8.6 memory scenario (two `NetRamDq` ports with
all Address pins pairwise connected and WE unlinked), the port walk
counts 2 partners before the merge; `absorb_partners` succeeds,
destroys port B, and leaves a port list holding exactly port A, so the
count afterwards is 1. -/
theorem claim_c3_absorb_scenario :
    countPartners [memPortB, memPortA] = 2 ∧
    (∃ s0, ramScenarioInit = some s0 ∧
      ∃ pr, absorbPartners memPortA s0 [memPortB, memPortA] = some pr ∧
        pr.2 = [memPortA] ∧ countPartners pr.2 = 1) :=
  ⟨rfl, ⟨_, rfl, ⟨_, rfl, by decide, rfl⟩⟩⟩

/-- Claim C4 counterexample: duplicating a signal-reference expression
does not yield a live second expression — `NetESignal::dup_expr` is
`assert(0)` and returns nothing — so the duplicated-expression count of
2 is never reached. -/
theorem claim_c4_dup_counterexample :
    netESignalDup (netESignalNew 0) = none ∧ netESignalNew 0 = 1 :=
  ⟨rfl, rfl⟩

/-- Claim C4 amended: the reference counter itself works as described
when the second expression is constructed rather than duplicated:
two `NetESignal` constructions bring `eref_count` to 2, each destructor
steps it down (2 to 1 to 0), the `NetNet` destructor accepts a
zero count, but `dup_expr` aborts on every count. -/
theorem claim_c4_eref_protocol :
    netESignalNew 0 = 1 ∧
    netESignalNew (netESignalNew 0) = 2 ∧
    netESignalDestroy (netESignalNew (netESignalNew 0)) = some 1 ∧
    (netESignalDestroy (netESignalNew (netESignalNew 0))).bind netESignalDestroy
      = some 0 ∧
    netNetDestroy 0 = some () ∧
    (∀ e, netESignalDup e = none) :=
  ⟨rfl, rfl, rfl, rfl, rfl, fun _ => rfl⟩

/-- Claim C5 counterexample: after `set_table("0r", '1')` on a 2-input
sequential UDP, the pin-1 transition of state "00" on level '1' does
not point to a state keyed "10". -/
theorem claim_c5_udp_counterexample :
    (udpScenario.setTable "0r".toList '1').map
      (fun u => u.transGet "00".toList 1 '1') ≠ some (some "10".toList) := by
  decide

/-- Claim C5 amended: after `set_table("0r", '1')` the state keyed "00"
exists and its pin-1 transition on level '1' points to the state keyed
"11" — the to-state's first character is the row's output '1', not the
previous output '0'. -/
theorem claim_c5_state_transition :
    ∃ u, udpScenario.setTable "0r".toList '1' = some u ∧
      "00".toList ∈ u.states ∧ "11".toList ∈ u.states ∧
      u.transGet "00".toList 1 '1' = some "11".toList :=
  ⟨_, rfl, by decide, by decide, by decide⟩

/-- Claim C6: after every successful sequence of
`add_signal`/`del_signal` calls the signal ring satisfies the
representation invariant (a duplicate-free list enumerates exactly the
registered signals as one circular doubly-linked ring, covering the
only-element, head-element and other-element deletion cases), and the
head pointer is null exactly when no signal is registered. -/
theorem claim_c6_signal_ring {m : ℕ} (ops : List (SigOp m))
    (h : (runSigOps ops).isSome) :
    RingInv ((runSigOps ops).get h) ∧
      (((runSigOps ops).get h).head = none ↔
        ∀ x, ((runSigOps ops).get h).reg x = false) := by
  have heq : runSigOps ops = some ((runSigOps ops).get h) := (Option.some_get h).symm
  have hinv := ringInv_runSigOps heq
  exact ⟨hinv, ringInv_head_none hinv⟩

/-- Claim C6 at a concrete input: three additions and a head-adjacent
deletion on a three-signal design. -/
theorem claim_c6_signal_ring_witness :
    RingInv ((runSigOps ([SigOp.add 0, SigOp.add 1, SigOp.add 2, SigOp.del 1] :
        List (SigOp 3))).get (by decide)) :=
  (claim_c6_signal_ring ([SigOp.add 0, SigOp.add 1, SigOp.add 2, SigOp.del 1] :
      List (SigOp 3)) (by decide)).1

/-- Claim C7: `find_parameter` is the upward search of the spec (probe
`P.N`, strip the last dotted suffix on each miss, not-found when no
prefix matches), and in the concrete scenario a parameter bound at
"top.sub.block.K" is found from root "top.sub.block.inner" and missed
from root "top.other". -/
theorem claim_c7_find_parameter {α : Type} (ps : List (List Char × α))
    (root name : List Char) (e : α) :
    findParameter ps root name = specParamSearch ps name (prefixChain root) ∧
    findParameter (setParameter [] "top.sub.block.K".toList e)
      "top.sub.block.inner".toList "K".toList = some e ∧
    findParameter (setParameter [] "top.sub.block.K".toList e)
      "top.other".toList "K".toList = none :=
  ⟨findParameter_eq_probe ps root name,
    (@findParameter_miss_step α (setParameter [] "top.sub.block.K".toList e)
        "top.sub.block.inner".toList "K".toList ⟨13, by decide⟩ rfl rfl).trans
      (findParameter_hit rfl),
    (@findParameter_miss_step α (setParameter [] "top.sub.block.K".toList e)
        "top.other".toList "K".toList ⟨3, by decide⟩ rfl rfl).trans
      (findParameter_miss_none rfl rfl)⟩

/-- Claim C8: the final width of `NetEBAdd` is 0 when the operand
widths still disagree after the four `set_width` calls and the common
operand width otherwise; and when both operands obey `set_width`
(adjusting to exactly the requested width), both end at the wider
operand's width and that is the expression width. -/
theorem claim_c8_add_width (l0 r0 : WOp)
    (hl : ∀ c r, l0.setw c r = r) (hr : ∀ c r, r0.setw c r = r) :
    (∀ a b : WOp,
      ((mkNetEBAdd a b).2.1.w = (mkNetEBAdd a b).1.w →
        (mkNetEBAdd a b).2.2 = (mkNetEBAdd a b).1.w) ∧
      ((mkNetEBAdd a b).2.1.w ≠ (mkNetEBAdd a b).1.w →
        (mkNetEBAdd a b).2.2 = 0)) ∧
    (mkNetEBAdd l0 r0).1.w = max l0.w r0.w ∧
    (mkNetEBAdd l0 r0).2.1.w = max l0.w r0.w ∧
    (mkNetEBAdd l0 r0).2.2 = max l0.w r0.w := by
  refine ⟨fun a b => ⟨fun h => ?_, fun h => ?_⟩, ?_, ?_, ?_⟩
  · simp only [mkNetEBAdd] at h ⊢
    rw [if_neg (not_not_intro h)]
  · simp only [mkNetEBAdd] at h ⊢
    rw [if_pos h]
  · simp only [mkNetEBAdd, applySetw]
    split_ifs <;> simp_all <;> omega
  · simp only [mkNetEBAdd, applySetw]
    split_ifs <;> simp_all <;> omega
  · simp only [mkNetEBAdd, applySetw]
    split_ifs <;> simp_all <;> omega

/-- Claim C8 at a concrete input: obedient operands of widths 3 and 5
give expression width `max 3 5`. -/
theorem claim_c8_add_width_witness :
    (mkNetEBAdd ⟨3, fun _ r => r⟩ ⟨5, fun _ r => r⟩).2.2 = max 3 5 :=
  (claim_c8_add_width ⟨3, fun _ r => r⟩ ⟨5, fun _ r => r⟩
    (fun _ _ => rfl) (fun _ _ => rfl)).2.2.2

/-- Claim C9: a non-blocking assignment whose r-value width is below
the l-value width increments the errors counter by exactly one, flags
the diagnostic, and still attaches the r-value; without the mismatch
the counter and diagnostic are untouched, and the r-value is attached
in every case. -/
theorem claim_c9_assign_nb_width (errors w rvWidth : ℕ) :
    (rvWidth < w → netAssignNB errors w rvWidth = ⟨errors + 1, true, true⟩) ∧
    (¬ rvWidth < w → netAssignNB errors w rvWidth = ⟨errors, false, true⟩) ∧
    (netAssignNB errors w rvWidth).rvalAttached = true := by
  refine ⟨fun h => ?_, fun h => ?_, ?_⟩
  · simp only [netAssignNB]
    rw [if_pos h]
  · simp only [netAssignNB]
    rw [if_neg h]
  · simp only [netAssignNB]
    split_ifs <;> rfl

/-- Claim C10: for two distinct pins `l` and `r` of a well-formed
state, the splice loop of `connect` reaches a fixed successful result
within `2n+1` iterations, and any larger fuel returns the same result
— the loop terminates and never runs forever. -/
theorem claim_c10_connect_terminates {n : ℕ} (s : State n) (l r : Fin n)
    (hwf : wfState s) (hlr : l ≠ r) :
    ∃ s2, ∀ fuel, 2 * n + 1 ≤ fuel → connectGo l r fuel l s = some s2 := by
  obtain ⟨s2, hc, -, -⟩ := connect_spec s l r hwf hlr
  simp only [connect] at hc
  rw [if_neg hlr] at hc
  exact ⟨s2, fun fuel hf => connectGo_mono_le l r hf l s s2 hc⟩

/-- Claim C10 at a concrete input: the fresh two-pin state. -/
theorem claim_c10_connect_terminates_witness :
    ∃ s2, ∀ fuel, 2 * 2 + 1 ≤ fuel →
      connectGo (0 : Fin 2) 1 fuel 0 (freshState 2) = some s2 :=
  claim_c10_connect_terminates (freshState 2) 0 1 (by decide) (by decide)

end Claims


end Netlist
